import Mathlib

/-!
Shallow embedding of the seq2c-rs coverage engine (src/main.rs) and proofs
checking the natural-language specification's claims against it.

Machine integers (`i32`, `i64`, `u32`) are modelled as `Int`/`Nat`; the
program only ever handles genomic coordinates far below 2^31, so the `as i32`
/ `as i64` casts are modelled as exact.  Floating point depth values are
modelled in `ℚ`; the claims under study concern which formula is applied and
under which guard, not `f64` rounding.
-/

namespace Seq2c

/-- Mirrors `struct RegionWithName { name: String, count: RefCell<i64> }`.
The `RefCell` is single-threaded interior mutability; modelled as a plain
integer field threaded through state. -/
structure RegionWithName where
  name : String
  count : Int
deriving DecidableEq, Repr

/-- A node of the coitrees `COITree`: an interval `[first, last]` (closed, as
coitrees treats its bounds) carrying `RegionWithName` metadata.  The program
stores a BED record's 0-based half-open `start`/`end` directly as
`first`/`last` without any end adjustment. -/
structure IntervalNode where
  first : Int
  last : Int
  metadata : RegionWithName
deriving DecidableEq, Repr

/-- Mirrors `struct OutputRegion { name, start, end, count }` (field `end`
renamed `end_`, a Lean keyword).  Field order matters: the derived Rust `Ord`
compares `name`, then `start`, then `end`, then `count`. -/
structure OutputRegion where
  name : String
  start : Int
  end_ : Int
  count : Int
deriving DecidableEq, Repr

/-- rust_htslib CIGAR operations; lengths are `u32`, modelled as `Nat`. -/
inductive Cigar where
  | Match (l : Nat)
  | Ins (l : Nat)
  | Del (l : Nat)
  | RefSkip (l : Nat)
  | SoftClip (l : Nat)
  | HardClip (l : Nat)
  | Pad (l : Nat)
  | Equal (l : Nat)
  | Diff (l : Nat)
deriving DecidableEq, Repr

/-- The fields of a parsed BAM record the engine consumes: flags, target id,
contig name, 0-based leftmost reference position, and the CIGAR string. -/
structure BamRecord where
  is_supplementary : Bool
  tid : Int
  contig : String
  reference_start : Int
  cigar : List Cigar
deriving DecidableEq, Repr

/-- The fields of a parsed BED record the engine consumes.  The program
panics when the name field is absent, so the embedding takes it as given. -/
structure BedRecord where
  chrom : String
  start : Int
  end_ : Int
  name : String
deriving DecidableEq, Repr

/-- Mirrors `fn calculate_coverage(a: Range<i64>, b: Range<i64>) -> i64`:
`min(a.end, b.end) - max(a.start, b.start) + 1`, with the two ranges passed
as `(aStart, aEnd)` and `(bStart, bEnd)`. -/
def calculate_coverage (aStart aEnd bStart bEnd : Int) : Int :=
  min aEnd bEnd - max aStart bStart + 1

/-- Mirrors `fn update_node`: skip regions named `"."`, otherwise add
`calculate_coverage(start..end, interval.first..interval.last)` to the
region's counter. -/
def update_node (start end_ : Int) (n : IntervalNode) : IntervalNode :=
  if n.metadata.name ≠ "." then
    { n with metadata :=
        { n.metadata with
            count := n.metadata.count +
              calculate_coverage start end_ n.first n.last } }
  else n

/-- The per-chromosome index map: chromosome name to that chromosome's
interval nodes.  The program keeps these in hash maps used only through
per-key lookup, so an association list keyed by chromosome is a faithful
model. -/
abbrev Catalog : Type := List (String × List IntervalNode)

/-- Association-list lookup, modelling `HashMap::get` / `get_mut`. -/
def lookupCat : Catalog → String → Option (List IntervalNode)
  | [], _ => none
  | (c, ns) :: rest, q => if c = q then some ns else lookupCat rest q

/-- Sum of the lengths of the reference-consuming CIGAR operations the
program keeps: `Cigar::Match` and `Cigar::Del` only. -/
def refLen (cig : List Cigar) : Nat :=
  (cig.filterMap fun c =>
    match c with
    | .Match l => some l
    | .Del l => some l
    | _ => none).sum

/-- `let start = record.reference_start() + 1` (1-based inclusive). -/
def alignStart (r : BamRecord) : Int :=
  r.reference_start + 1

/-- `let end = start - 1 + (sum of Match/Del lengths)` (1-based inclusive). -/
def alignEnd (r : BamRecord) : Int :=
  alignStart r - 1 + (refLen r.cigar : Int)

/-- The coitrees overlap test: a query `[qfirst, qlast]` visits every node
whose closed interval `[first, last]` intersects it, i.e.
`first ≤ qlast ∧ qfirst ≤ last`. -/
def overlaps (qfirst qlast : Int) (n : IntervalNode) : Bool :=
  decide (n.first ≤ qlast) && decide (qfirst ≤ n.last)

theorem overlaps_iff {qfirst qlast : Int} {n : IntervalNode} :
    overlaps qfirst qlast n = true ↔ n.first ≤ qlast ∧ qfirst ≤ n.last := by
  simp [overlaps]

/-- Effect of one query visit on one node: nodes the query
`[qfirst, qlast]` visits get `update_node s e`, the others are unchanged. -/
def touchNode (qfirst qlast s e : Int) (n : IntervalNode) : IntervalNode :=
  if overlaps qfirst qlast n then update_node s e n else n

/-- One querent query pass over a chromosome's nodes. -/
def applyQuery (qfirst qlast s e : Int)
    (ns : List IntervalNode) : List IntervalNode :=
  ns.map (touchNode qfirst qlast s e)

/-- The effect of one BAM record on one catalog entry: on the record's
contig, run `update_node start end` on every node visited by
`query(start - 1, end + 1)`; other chromosomes are untouched. -/
def recF (r : BamRecord) (p : String × List IntervalNode) :
    String × List IntervalNode :=
  if p.1 = r.contig then
    (p.1, applyQuery (alignStart r - 1) (alignEnd r + 1)
            (alignStart r) (alignEnd r) p.2)
  else p

/-- One iteration of the BAM loop: skip supplementary records, skip records
with `tid() < 0` (unmapped), skip records whose contig has no querent, and
otherwise run `update_node start end` on every node visited by
`query(start - 1, end + 1)`. -/
def processRecord (cat : Catalog) (r : BamRecord) : Catalog :=
  if r.is_supplementary then cat
  else if r.tid < 0 then cat
  else
    match lookupCat cat r.contig with
    | none => cat
    | some _ => cat.map (recF r)

/-- The whole accumulation phase: fold the BAM record stream. -/
def processBam (cat : Catalog) (rs : List BamRecord) : Catalog :=
  rs.foldl processRecord cat

/-- `Interval::new(rec.start() as i32, rec.end() as i32, RegionWithName {
name, count: RefCell::new(0) })`. -/
def bedNode (b : BedRecord) : IntervalNode :=
  ⟨b.start, b.end_, ⟨b.name, 0⟩⟩

/-- `nodes.entry(rec.chrom()).or_default().push(interval)`: append the new
node to its chromosome's vector, creating the entry on first sight. -/
def insertBed : Catalog → BedRecord → Catalog
  | [], b => [(b.chrom, [bedNode b])]
  | (c, ns) :: rest, b =>
    if c = b.chrom then (c, ns ++ [bedNode b]) :: rest
    else (c, ns) :: insertBed rest b

/-- Reading the whole BED file into the per-chromosome node map. -/
def buildCatalog (beds : List BedRecord) : Catalog :=
  beds.foldl insertBed []

/- ### Basic facts about `update_node` -/

@[simp] theorem update_node_first (s e : Int) (n : IntervalNode) :
    (update_node s e n).first = n.first := by
  unfold update_node; split <;> rfl

@[simp] theorem update_node_last (s e : Int) (n : IntervalNode) :
    (update_node s e n).last = n.last := by
  unfold update_node; split <;> rfl

@[simp] theorem update_node_name (s e : Int) (n : IntervalNode) :
    (update_node s e n).metadata.name = n.metadata.name := by
  unfold update_node; split <;> rfl

theorem update_node_dot (s e : Int) (n : IntervalNode)
    (h : n.metadata.name = ".") : update_node s e n = n := by
  simp [update_node, h]

/-- C1: for every region whose name is not the sentinel `"."`, `update_node`
adds exactly `min(ref_end, region_end) - max(ref_start, region_start) + 1`
to its counter, computed on the region's stored bounds (the half-open end is
used as stored, not converted to inclusive form). -/
theorem c1_overlap_amount (s e : Int) (n : IntervalNode)
    (h : n.metadata.name ≠ ".") :
    (update_node s e n).metadata.count =
      n.metadata.count + (min e n.last - max s n.first + 1) := by
  simp [update_node, h, calculate_coverage]

/-- Witness for C1 at the spec's example: region `[10, 20)` (stored bounds
10 and 20), alignment inclusive span `[15, 25]`; the amount added is
`min 25 20 - max 15 10 + 1 = 6`. -/
theorem c1_overlap_amount_witness :
    (update_node 15 25 ⟨10, 20, ⟨"r1", 0⟩⟩).metadata.count =
        0 + (min (25 : Int) 20 - max 15 10 + 1) ∧
      (0 : Int) + (min (25 : Int) 20 - max 15 10 + 1) = 6 :=
  ⟨c1_overlap_amount 15 25 ⟨10, 20, ⟨"r1", 0⟩⟩ (by decide), by decide⟩

theorem processRecord_skip (cat : Catalog) (r : BamRecord)
    (h : r.is_supplementary = true ∨ r.tid < 0 ∨
      lookupCat cat r.contig = none) :
    processRecord cat r = cat := by
  unfold processRecord
  rcases h with h | h | h
  · simp [h]
  · simp [h]
  · simp [h]

/-- C6: a supplementary record, a record with no assigned reference
(`tid < 0`), or a record whose chromosome has no entry in the region catalog
is a benign no-op: the catalog is returned unchanged (and `processRecord` is
a total function, so no error arises). -/
theorem c6_benign_skip (cat : Catalog) (r : BamRecord)
    (h : r.is_supplementary = true ∨ r.tid < 0 ∨
      lookupCat cat r.contig = none) :
    processRecord cat r = cat :=
  processRecord_skip cat r h

/-- Witness for C6: a concrete unmapped-and-untracked record leaves a
concrete one-chromosome catalog unchanged. -/
theorem c6_benign_skip_witness :
    processRecord [("chr1", [⟨0, 10, ⟨"g", 0⟩⟩])]
        ⟨false, -1, "chrX", 5, [.Match 3]⟩ =
      [("chr1", [⟨0, 10, ⟨"g", 0⟩⟩])] :=
  c6_benign_skip _ _ (Or.inr (Or.inl (by decide)))

/- ### C5: sentinel-named regions never accumulate -/

/-- Invariant: every region named `"."` has counter 0. -/
def dotInv (cat : Catalog) : Prop :=
  ∀ p ∈ cat, ∀ n ∈ p.2, n.metadata.name = "." → n.metadata.count = 0

/-- All counters are 0 (true of the freshly built catalog). -/
def zeroCounts (cat : Catalog) : Prop :=
  ∀ p ∈ cat, ∀ n ∈ p.2, n.metadata.count = 0

theorem zeroCounts_dotInv {cat : Catalog} (h : zeroCounts cat) : dotInv cat :=
  fun p hp n hn _ => h p hp n hn

theorem insertBed_zeroCounts {cat : Catalog} (b : BedRecord)
    (h : zeroCounts cat) : zeroCounts (insertBed cat b) := by
  induction cat with
  | nil =>
    intro p hp n hn
    simp only [insertBed, List.mem_singleton] at hp
    subst hp
    simp only [List.mem_singleton] at hn
    subst hn
    rfl
  | cons q rest ih =>
    obtain ⟨c, ns⟩ := q
    intro p hp n hn
    by_cases hc : c = b.chrom
    · simp only [insertBed, if_pos hc, List.mem_cons] at hp
      rcases hp with hp | hp
      · subst hp
        simp only [List.mem_append, List.mem_singleton] at hn
        rcases hn with hn | hn
        · exact h (c, ns) (List.mem_cons_self _ _) n hn
        · subst hn; rfl
      · exact h p (List.mem_cons_of_mem _ hp) n hn
    · simp only [insertBed, if_neg hc, List.mem_cons] at hp
      rcases hp with hp | hp
      · subst hp
        exact h (c, ns) (List.mem_cons_self _ _) n hn
      · exact ih (fun q hq m hm => h q (List.mem_cons_of_mem _ hq) m hm) p hp n hn

theorem buildCatalog_zeroCounts (beds : List BedRecord) :
    zeroCounts (buildCatalog beds) := by
  unfold buildCatalog
  have main : ∀ (l : List BedRecord) (acc : Catalog), zeroCounts acc →
      zeroCounts (l.foldl insertBed acc) := by
    intro l
    induction l with
    | nil => intro acc h; exact h
    | cons b rest ih =>
      intro acc h
      exact ih _ (insertBed_zeroCounts b h)
  exact main beds [] (by intro p hp; simp at hp)

theorem processRecord_dotInv {cat : Catalog} {r : BamRecord}
    (h : dotInv cat) : dotInv (processRecord cat r) := by
  unfold processRecord
  split
  · exact h
  · split
    · exact h
    · split
      · exact h
      · intro p hp n hn hname
        simp only [List.mem_map] at hp
        obtain ⟨q, hq, hpq⟩ := hp
        unfold recF at hpq
        by_cases hc : q.1 = r.contig
        · rw [if_pos hc] at hpq
          subst hpq
          simp only [applyQuery, List.mem_map] at hn
          obtain ⟨m, hm, hmn⟩ := hn
          unfold touchNode at hmn
          by_cases hov : overlaps (alignStart r - 1) (alignEnd r + 1) m
          · rw [if_pos hov] at hmn
            have hmname : m.metadata.name = "." := by
              have := update_node_name (alignStart r) (alignEnd r) m
              rw [hmn] at this
              rw [← this, hname]
            rw [update_node_dot _ _ _ hmname] at hmn
            subst hmn
            exact h q hq m hm hmname
          · rw [if_neg hov] at hmn
            subst hmn
            exact h q hq m hm hname
        · rw [if_neg hc] at hpq
          subst hpq
          exact h q hq n hn hname

theorem processBam_dotInv {cat : Catalog} (rs : List BamRecord)
    (h : dotInv cat) : dotInv (processBam cat rs) := by
  unfold processBam
  induction rs generalizing cat with
  | nil => exact h
  | cons r rest ih => exact ih (processRecord_dotInv h)

/-- C5: a region named `"."` never receives overlap credit.  First conjunct:
the zero-counter invariant for sentinel regions is preserved by every single
accumulation step; second conjunct: after the whole run over any BED file
and any BAM stream, every sentinel-named region's counter is still 0. -/
theorem c5_sentinel_zero :
    (∀ (cat : Catalog) (r : BamRecord), dotInv cat →
        dotInv (processRecord cat r)) ∧
      ∀ (beds : List BedRecord) (rs : List BamRecord)
        (p : String × List IntervalNode),
        p ∈ processBam (buildCatalog beds) rs →
        ∀ n ∈ p.2, n.metadata.name = "." → n.metadata.count = 0 := by
  constructor
  · intro cat r h
    exact processRecord_dotInv h
  · intro beds rs p hp n hn hname
    exact processBam_dotInv rs
      (zeroCounts_dotInv (buildCatalog_zeroCounts beds)) p hp n hn hname

/-- Witness for C5: a `"."`-region fully covered by an alignment still has
counter 0 after the run. -/
theorem c5_sentinel_zero_witness :
    (⟨0, 100, ⟨".", 0⟩⟩ : IntervalNode).metadata.count = 0 :=
  c5_sentinel_zero.2 [⟨"chr1", 0, 100, "."⟩]
    [⟨false, 0, "chr1", 10, [.Match 20]⟩]
    ("chr1", [⟨0, 100, ⟨".", 0⟩⟩])
    (by decide)
    ⟨0, 100, ⟨".", 0⟩⟩ (by decide) (by decide)

/- ### C8: every accumulation step adds a non-negative amount -/

/-- Well-formed catalog: every stored region has `first ≤ last` (BED records
satisfy `start ≤ end`). -/
def wfCat (cat : Catalog) : Prop :=
  ∀ p ∈ cat, ∀ n ∈ p.2, n.first ≤ n.last

/-- Pointwise ordering on nodes: same interval, same name, counter may only
grow. -/
def nodeLE (a b : IntervalNode) : Prop :=
  a.first = b.first ∧ a.last = b.last ∧
    a.metadata.name = b.metadata.name ∧ a.metadata.count ≤ b.metadata.count

/-- Pointwise ordering on catalog entries. -/
def entryLE (p q : String × List IntervalNode) : Prop :=
  p.1 = q.1 ∧ List.Forall₂ nodeLE p.2 q.2

/-- Pointwise ordering on catalogs: same shape, counters non-decreasing. -/
def catalogLE (c1 c2 : Catalog) : Prop :=
  List.Forall₂ entryLE c1 c2

theorem nodeLE_refl (n : IntervalNode) : nodeLE n n :=
  ⟨rfl, rfl, rfl, le_refl _⟩

theorem nodeLE_trans {a b c : IntervalNode} (h1 : nodeLE a b)
    (h2 : nodeLE b c) : nodeLE a c :=
  ⟨h1.1.trans h2.1, h1.2.1.trans h2.2.1, h1.2.2.1.trans h2.2.2.1,
    h1.2.2.2.trans h2.2.2.2⟩

theorem entryLE_refl (p : String × List IntervalNode) : entryLE p p :=
  ⟨rfl, List.forall₂_same.mpr fun n _ => nodeLE_refl n⟩

theorem forall₂_trans_of {α : Type} (R : α → α → Prop)
    (hR : ∀ a b c, R a b → R b c → R a c) :
    ∀ {l1 l2 l3 : List α}, List.Forall₂ R l1 l2 → List.Forall₂ R l2 l3 →
      List.Forall₂ R l1 l3 := by
  intro l1 l2 l3 h12
  induction h12 generalizing l3 with
  | nil =>
    intro h23
    cases h23
    exact List.Forall₂.nil
  | cons hab h ih =>
    intro h23
    cases h23 with
    | cons hbc h' => exact List.Forall₂.cons (hR _ _ _ hab hbc) (ih h')

theorem forall₂_mem_right {α β : Type} {R : α → β → Prop} :
    ∀ {l1 : List α} {l2 : List β}, List.Forall₂ R l1 l2 →
      ∀ b ∈ l2, ∃ a ∈ l1, R a b := by
  intro l1 l2 h
  induction h with
  | nil => intro b hb; simp at hb
  | cons hab h ih =>
    intro b hb
    rcases List.mem_cons.mp hb with rfl | hb'
    · exact ⟨_, List.mem_cons_self _ _, hab⟩
    · obtain ⟨a, ha, har⟩ := ih b hb'
      exact ⟨a, List.mem_cons_of_mem _ ha, har⟩

theorem entryLE_trans {p q s : String × List IntervalNode}
    (h1 : entryLE p q) (h2 : entryLE q s) : entryLE p s :=
  ⟨h1.1.trans h2.1,
    forall₂_trans_of nodeLE (fun _ _ _ ha hb => nodeLE_trans ha hb) h1.2 h2.2⟩

theorem catalogLE_refl (cat : Catalog) : catalogLE cat cat :=
  List.forall₂_same.mpr fun p _ => entryLE_refl p

theorem catalogLE_trans {c1 c2 c3 : Catalog} (h1 : catalogLE c1 c2)
    (h2 : catalogLE c2 c3) : catalogLE c1 c3 :=
  forall₂_trans_of entryLE (fun _ _ _ ha hb => entryLE_trans ha hb) h1 h2

/-- Transfer of a per-node predicate along `catalogLE`. -/
theorem catalogLE_node_pred {Pred : IntervalNode → Prop}
    (hP : ∀ a b, nodeLE a b → Pred a → Pred b)
    {c1 c2 : Catalog} (h : catalogLE c1 c2)
    (h1 : ∀ p ∈ c1, ∀ n ∈ p.2, Pred n) :
    ∀ p ∈ c2, ∀ n ∈ p.2, Pred n := by
  intro p hp n hn
  obtain ⟨q, hq, hqp⟩ := forall₂_mem_right h p hp
  obtain ⟨m, hm, hmn⟩ := forall₂_mem_right hqp.2 n hn
  exact hP m n hmn (h1 q hq m hm)

theorem catalogLE_wf {c1 c2 : Catalog} (h : catalogLE c1 c2)
    (hwf : wfCat c1) : wfCat c2 :=
  catalogLE_node_pred
    (fun a b hab ha => by rw [← hab.1, ← hab.2.1]; exact ha) h hwf

/-- Inside `processRecord`'s query, the coverage added to a visited
well-formed region is non-negative: the one-base pad plus `e ≥ s - 1`
(the CIGAR sum is a natural number) force
`max(s, first) ≤ min(e, last) + 1`. -/
theorem coverage_nonneg (r : BamRecord) (n : IntervalNode)
    (hov : overlaps (alignStart r - 1) (alignEnd r + 1) n = true)
    (hfl : n.first ≤ n.last) :
    0 ≤ calculate_coverage (alignStart r) (alignEnd r) n.first n.last := by
  rw [overlaps_iff] at hov
  unfold calculate_coverage
  rcases min_cases (alignEnd r) n.last with ⟨hm, hm'⟩ | ⟨hm, hm'⟩ <;>
    rcases max_cases (alignStart r) n.first with ⟨hx, hx'⟩ | ⟨hx, hx'⟩ <;>
    simp only [alignStart, alignEnd] at * <;> omega

theorem processRecord_mono {cat : Catalog} {r : BamRecord}
    (hwf : wfCat cat) : catalogLE cat (processRecord cat r) := by
  unfold processRecord
  split
  · exact catalogLE_refl cat
  · split
    · exact catalogLE_refl cat
    · split
      · exact catalogLE_refl cat
      · unfold catalogLE
        rw [List.forall₂_map_right_iff]
        refine List.forall₂_same.mpr fun p hp => ?_
        unfold recF
        by_cases hc : p.1 = r.contig
        · rw [if_pos hc]
          refine ⟨rfl, ?_⟩
          unfold applyQuery
          rw [List.forall₂_map_right_iff]
          refine List.forall₂_same.mpr fun n hn => ?_
          unfold touchNode
          by_cases hov : overlaps (alignStart r - 1) (alignEnd r + 1) n
          · rw [if_pos hov]
            refine ⟨(update_node_first _ _ _).symm,
              (update_node_last _ _ _).symm,
              (update_node_name _ _ _).symm, ?_⟩
            unfold update_node
            split
            · simp only
              have := coverage_nonneg r n hov (hwf p hp n hn)
              omega
            · exact le_refl _
          · rw [if_neg hov]
            exact nodeLE_refl n
        · rw [if_neg hc]
          exact entryLE_refl p

theorem processBam_mono {cat : Catalog} (rs : List BamRecord)
    (hwf : wfCat cat) : catalogLE cat (processBam cat rs) := by
  unfold processBam
  induction rs generalizing cat with
  | nil => exact catalogLE_refl cat
  | cons r rest ih =>
    have h1 := processRecord_mono (r := r) hwf
    exact catalogLE_trans h1 (ih (catalogLE_wf h1 hwf))

theorem insertBed_wf {cat : Catalog} {b : BedRecord}
    (hb : b.start ≤ b.end_) (h : wfCat cat) : wfCat (insertBed cat b) := by
  induction cat with
  | nil =>
    intro p hp n hn
    simp only [insertBed, List.mem_singleton] at hp
    subst hp
    simp only [List.mem_singleton] at hn
    subst hn
    exact hb
  | cons q rest ih =>
    obtain ⟨c, ns⟩ := q
    intro p hp n hn
    by_cases hc : c = b.chrom
    · simp only [insertBed, if_pos hc, List.mem_cons] at hp
      rcases hp with hp | hp
      · subst hp
        simp only [List.mem_append, List.mem_singleton] at hn
        rcases hn with hn | hn
        · exact h (c, ns) (List.mem_cons_self _ _) n hn
        · subst hn; exact hb
      · exact h p (List.mem_cons_of_mem _ hp) n hn
    · simp only [insertBed, if_neg hc, List.mem_cons] at hp
      rcases hp with hp | hp
      · subst hp
        exact h (c, ns) (List.mem_cons_self _ _) n hn
      · exact ih (fun q hq m hm => h q (List.mem_cons_of_mem _ hq) m hm) p hp n hn

theorem buildCatalog_wf (beds : List BedRecord)
    (hb : ∀ b ∈ beds, b.start ≤ b.end_) : wfCat (buildCatalog beds) := by
  unfold buildCatalog
  have main : ∀ (l : List BedRecord) (acc : Catalog),
      (∀ b ∈ l, b.start ≤ b.end_) → wfCat acc →
      wfCat (l.foldl insertBed acc) := by
    intro l
    induction l with
    | nil => intro acc _ h; exact h
    | cons b rest ih =>
      intro acc hl h
      exact ih _ (fun q hq => hl q (List.mem_cons_of_mem _ hq))
        (insertBed_wf (hl b (List.mem_cons_self _ _)) h)
  exact main beds [] hb (by intro p hp; simp at hp)

/-- C8: (1) the amount `min(ref_end, region_end) - max(ref_start,
region_start) + 1` added to a region visited by the padded query
`[ref_start - 1, ref_end + 1]` is non-negative whenever the region is
well-formed (`first ≤ last`); (2) counters are non-decreasing throughout a
run on a well-formed catalog; (3) starting from a freshly built catalog of
well-formed BED records every counter stays non-negative; (4) a region
touched only through the one-base query pad (its end at `ref_start - 1` or
its start at `ref_end + 1`) receives exactly 0. -/
theorem c8_nonneg_accumulation :
    (∀ (r : BamRecord) (n : IntervalNode),
        overlaps (alignStart r - 1) (alignEnd r + 1) n = true →
        n.first ≤ n.last →
        0 ≤ calculate_coverage (alignStart r) (alignEnd r) n.first n.last) ∧
      (∀ (cat : Catalog) (rs : List BamRecord), wfCat cat →
        catalogLE cat (processBam cat rs)) ∧
      (∀ (beds : List BedRecord) (rs : List BamRecord),
        (∀ b ∈ beds, b.start ≤ b.end_) →
        ∀ p ∈ processBam (buildCatalog beds) rs, ∀ n ∈ p.2,
          0 ≤ n.metadata.count) ∧
      ∀ (r : BamRecord) (n : IntervalNode), n.first ≤ n.last →
        (n.last = alignStart r - 1 ∨ n.first = alignEnd r + 1) →
        calculate_coverage (alignStart r) (alignEnd r) n.first n.last = 0 := by
  refine ⟨coverage_nonneg, fun cat rs hwf => processBam_mono rs hwf,
    ?_, ?_⟩
  · intro beds rs hb
    have hz := buildCatalog_zeroCounts beds
    have hwf := buildCatalog_wf beds hb
    have hmono := processBam_mono rs hwf
    exact catalogLE_node_pred
      (fun a b hab ha => le_trans ha hab.2.2.2) hmono
      (fun p hp n hn => le_of_eq (hz p hp n hn).symm)
  · intro r n hfl hpad
    unfold calculate_coverage
    rcases min_cases (alignEnd r) n.last with ⟨hm, hm'⟩ | ⟨hm, hm'⟩ <;>
      rcases max_cases (alignStart r) n.first with ⟨hx, hx'⟩ | ⟨hx, hx'⟩ <;>
      simp only [alignStart, alignEnd] at * <;> omega

/-- Witness for C8: a concrete visited region receives a non-negative
amount. -/
theorem c8_nonneg_accumulation_witness :
    0 ≤ calculate_coverage (alignStart ⟨false, 0, "chr1", 9, [.Match 5]⟩)
      (alignEnd ⟨false, 0, "chr1", 9, [.Match 5]⟩) 12 20 :=
  c8_nonneg_accumulation.1 ⟨false, 0, "chr1", 9, [.Match 5]⟩
    ⟨12, 20, ⟨"g", 0⟩⟩ (by decide) (by decide)

/- ### C7: permutation invariance of the accumulation phase -/

theorem overlaps_update_node (qf ql s e : Int) (n : IntervalNode) :
    overlaps qf ql (update_node s e n) = overlaps qf ql n := by
  simp [overlaps]

theorem update_node_comm (s1 e1 s2 e2 : Int) (n : IntervalNode) :
    update_node s1 e1 (update_node s2 e2 n) =
      update_node s2 e2 (update_node s1 e1 n) := by
  by_cases h : n.metadata.name = "."
  · rw [update_node_dot s2 e2 n h, update_node_dot s1 e1 n h,
      update_node_dot s2 e2 n h]
  · obtain ⟨f, l, nm, cnt⟩ := n
    simp only at h
    simp [update_node, h]
    omega

theorem touchNode_comm (qf1 ql1 s1 e1 qf2 ql2 s2 e2 : Int)
    (n : IntervalNode) :
    touchNode qf1 ql1 s1 e1 (touchNode qf2 ql2 s2 e2 n) =
      touchNode qf2 ql2 s2 e2 (touchNode qf1 ql1 s1 e1 n) := by
  unfold touchNode
  by_cases h1 : overlaps qf1 ql1 n <;> by_cases h2 : overlaps qf2 ql2 n <;>
    simp [h1, h2, overlaps_update_node] <;>
    exact update_node_comm s1 e1 s2 e2 n

theorem applyQuery_comm (qf1 ql1 s1 e1 qf2 ql2 s2 e2 : Int)
    (ns : List IntervalNode) :
    applyQuery qf1 ql1 s1 e1 (applyQuery qf2 ql2 s2 e2 ns) =
      applyQuery qf2 ql2 s2 e2 (applyQuery qf1 ql1 s1 e1 ns) := by
  unfold applyQuery
  rw [List.map_map, List.map_map]
  congr 1
  funext n
  simp only [Function.comp]
  exact touchNode_comm qf1 ql1 s1 e1 qf2 ql2 s2 e2 n

theorem recF_fst (r : BamRecord) (p : String × List IntervalNode) :
    (recF r p).1 = p.1 := by
  unfold recF
  split <;> rfl

theorem map_recF_fst (r : BamRecord) (cat : Catalog) :
    (cat.map (recF r)).map Prod.fst = cat.map Prod.fst := by
  rw [List.map_map]
  congr 1
  funext p
  simp only [Function.comp]
  exact recF_fst r p

theorem processRecord_fst (cat : Catalog) (r : BamRecord) :
    (processRecord cat r).map Prod.fst = cat.map Prod.fst := by
  unfold processRecord
  split
  · rfl
  · split
    · rfl
    · split
      · rfl
      · exact map_recF_fst r cat

theorem lookupCat_none_iff (cat : Catalog) (q : String) :
    lookupCat cat q = none ↔ q ∉ cat.map Prod.fst := by
  induction cat with
  | nil => simp [lookupCat]
  | cons p rest ih =>
    obtain ⟨c, ns⟩ := p
    by_cases hc : c = q
    · subst hc
      simp [lookupCat]
    · simp only [lookupCat, if_neg hc, List.map_cons, List.mem_cons]
      rw [ih]
      constructor
      · intro h hq
        rcases hq with hq | hq
        · exact hc hq.symm
        · exact h hq
      · intro h hq
        exact h (Or.inr hq)

theorem lookupCat_none_congr {cat cat' : Catalog}
    (h : cat.map Prod.fst = cat'.map Prod.fst) (q : String) :
    (lookupCat cat q = none ↔ lookupCat cat' q = none) := by
  rw [lookupCat_none_iff, lookupCat_none_iff, h]

theorem processRecord_active {cat : Catalog} {r : BamRecord}
    (h1 : r.is_supplementary = false) (h2 : ¬r.tid < 0)
    (h3 : lookupCat cat r.contig ≠ none) :
    processRecord cat r = cat.map (recF r) := by
  rcases Option.eq_none_or_eq_some (lookupCat cat r.contig) with hn | ⟨ns, hns⟩
  · exact absurd hn h3
  · unfold processRecord
    simp [h1, h2, hns]

theorem recF_pair (r : BamRecord) (c : String) (ns : List IntervalNode) :
    recF r (c, ns) =
      (c, if c = r.contig then
            applyQuery (alignStart r - 1) (alignEnd r + 1)
              (alignStart r) (alignEnd r) ns
          else ns) := by
  unfold recF
  by_cases h : c = r.contig <;> simp [h]

theorem recF_comm (r1 r2 : BamRecord) (p : String × List IntervalNode) :
    recF r2 (recF r1 p) = recF r1 (recF r2 p) := by
  obtain ⟨c, ns⟩ := p
  rw [recF_pair, recF_pair, recF_pair, recF_pair]
  by_cases h1 : c = r1.contig
  · subst h1
    by_cases h2 : r1.contig = r2.contig
    · simp [h2]
      exact applyQuery_comm _ _ _ _ _ _ _ _ ns
    · simp [h2]
  · by_cases h2 : c = r2.contig
    · subst h2
      have h1' : ¬r2.contig = r1.contig := h1
      simp [h1']
    · simp [h1, h2]

theorem processRecord_comm (cat : Catalog) (r1 r2 : BamRecord) :
    processRecord (processRecord cat r1) r2 =
      processRecord (processRecord cat r2) r1 := by
  by_cases hs1 : r1.is_supplementary
  · rw [processRecord_skip cat r1 (Or.inl hs1),
      processRecord_skip (processRecord cat r2) r1 (Or.inl hs1)]
  · by_cases ht1 : r1.tid < 0
    · rw [processRecord_skip cat r1 (Or.inr (Or.inl ht1)),
        processRecord_skip (processRecord cat r2) r1 (Or.inr (Or.inl ht1))]
    · by_cases hs2 : r2.is_supplementary
      · rw [processRecord_skip cat r2 (Or.inl hs2),
          processRecord_skip (processRecord cat r1) r2 (Or.inl hs2)]
      · by_cases ht2 : r2.tid < 0
        · rw [processRecord_skip cat r2 (Or.inr (Or.inl ht2)),
            processRecord_skip (processRecord cat r1) r2 (Or.inr (Or.inl ht2))]
        · simp only [Bool.not_eq_true] at hs1 hs2
          by_cases hl1 : lookupCat cat r1.contig = none
          · have hl1' : lookupCat (processRecord cat r2) r1.contig = none :=
              (lookupCat_none_congr (processRecord_fst cat r2) r1.contig).mpr hl1
            rw [processRecord_skip cat r1 (Or.inr (Or.inr hl1)),
              processRecord_skip (processRecord cat r2) r1 (Or.inr (Or.inr hl1'))]
          · by_cases hl2 : lookupCat cat r2.contig = none
            · have hl2' : lookupCat (processRecord cat r1) r2.contig = none :=
                (lookupCat_none_congr (processRecord_fst cat r1) r2.contig).mpr hl2
              rw [processRecord_skip cat r2 (Or.inr (Or.inr hl2)),
                processRecord_skip (processRecord cat r1) r2 (Or.inr (Or.inr hl2'))]
            · have e1 := processRecord_active hs1 ht1 hl1
              have e2 := processRecord_active hs2 ht2 hl2
              have hl2m : lookupCat (cat.map (recF r1)) r2.contig ≠ none :=
                fun hc => hl2
                  ((lookupCat_none_congr (map_recF_fst r1 cat) r2.contig).mp hc)
              have hl1m : lookupCat (cat.map (recF r2)) r1.contig ≠ none :=
                fun hc => hl1
                  ((lookupCat_none_congr (map_recF_fst r2 cat) r1.contig).mp hc)
              rw [e1, e2, processRecord_active hs2 ht2 hl2m,
                processRecord_active hs1 ht1 hl1m,
                List.map_map, List.map_map]
              congr 1
              funext p
              simp only [Function.comp]
              exact recF_comm r1 r2 p

instance : RightCommutative processRecord :=
  ⟨fun cat r1 r2 => processRecord_comm cat r1 r2⟩

theorem processBam_perm {l1 l2 : List BamRecord} (h : l1.Perm l2)
    (cat : Catalog) : processBam cat l1 = processBam cat l2 :=
  h.foldl_eq cat

/- ### C4: the report sort and its composite key -/

/-- Lexicographic strict order on character lists by code point.  Rust
compares `String`s byte-wise on their UTF-8 encoding, which coincides with
code-point lexicographic order. -/
def charListLt : List Char → List Char → Bool
  | [], [] => false
  | [], _ :: _ => true
  | _ :: _, [] => false
  | a :: as, b :: bs =>
    if a.toNat < b.toNat then true
    else if b.toNat < a.toNat then false
    else charListLt as bs

/-- Rust's `String` ordering. -/
def strLt (a b : String) : Bool :=
  charListLt a.data b.data

theorem charListLt_irrefl (l : List Char) : charListLt l l = false := by
  induction l with
  | nil => rfl
  | cons a as ih => simp [charListLt, ih]

theorem charListLt_trans : ∀ {a b c : List Char},
    charListLt a b = true → charListLt b c = true → charListLt a c = true := by
  intro a
  induction a with
  | nil =>
    intro b c hab hbc
    cases b with
    | nil => exact hbc
    | cons b bs =>
      cases c with
      | nil => simp [charListLt] at hbc
      | cons c cs => rfl
  | cons a as ih =>
    intro b c hab hbc
    cases b with
    | nil => simp [charListLt] at hab
    | cons b bs =>
      cases c with
      | nil => simp [charListLt] at hbc
      | cons c cs =>
        simp only [charListLt] at hab hbc ⊢
        by_cases h1 : a.toNat < b.toNat
        · by_cases h2 : b.toNat < c.toNat
          · have hac : a.toNat < c.toNat := by omega
            simp [hac]
          · simp only [h2, if_false] at hbc
            by_cases h4 : c.toNat < b.toNat
            · simp [h4] at hbc
            · have hac : a.toNat < c.toNat := by omega
              simp [hac]
        · simp only [h1, if_false] at hab
          by_cases h3 : b.toNat < a.toNat
          · simp [h3] at hab
          · simp only [h3, if_false] at hab
            by_cases h2 : b.toNat < c.toNat
            · have hac : a.toNat < c.toNat := by omega
              simp [hac]
            · simp only [h2, if_false] at hbc
              by_cases h4 : c.toNat < b.toNat
              · simp [h4] at hbc
              · simp only [h4, if_false] at hbc
                have hac1 : ¬a.toNat < c.toNat := by omega
                have hac2 : ¬c.toNat < a.toNat := by omega
                simp only [hac1, hac2, if_false]
                exact ih hab hbc

theorem char_toNat_inj {a b : Char} (h : a.toNat = b.toNat) : a = b := by
  have hv : a.val = b.val := by
    have h2 : a.val.toNat = b.val.toNat := h
    exact UInt32.eq_of_val_eq (Fin.ext h2)
  exact Char.ext hv

theorem charListLt_total : ∀ (a b : List Char),
    charListLt a b = true ∨ charListLt b a = true ∨ a = b := by
  intro a
  induction a with
  | nil =>
    intro b
    cases b with
    | nil => exact Or.inr (Or.inr rfl)
    | cons b bs => exact Or.inl rfl
  | cons a as ih =>
    intro b
    cases b with
    | nil => exact Or.inr (Or.inl rfl)
    | cons b bs =>
      by_cases h1 : a.toNat < b.toNat
      · exact Or.inl (by simp [charListLt, h1])
      · by_cases h2 : b.toNat < a.toNat
        · exact Or.inr (Or.inl (by simp [charListLt, h2]))
        · have hab : a = b := char_toNat_inj (by omega)
          subst hab
          rcases ih bs with h | h | h
          · exact Or.inl (by simp [charListLt, h])
          · exact Or.inr (Or.inl (by simp [charListLt, h]))
          · exact Or.inr (Or.inr (by rw [h]))

theorem strLt_irrefl (s : String) : strLt s s = false :=
  charListLt_irrefl s.data

theorem strLt_trans {a b c : String} (h1 : strLt a b = true)
    (h2 : strLt b c = true) : strLt a c = true :=
  charListLt_trans h1 h2

theorem strLt_total (a b : String) :
    strLt a b = true ∨ strLt b a = true ∨ a = b := by
  rcases charListLt_total a.data b.data with h | h | h
  · exact Or.inl h
  · exact Or.inr (Or.inl h)
  · refine Or.inr (Or.inr ?_)
    cases a with
    | mk da =>
      cases b with
      | mk db =>
        have h' : da = db := h
        rw [h']

/-- The derived Rust `Ord` on `OutputRegion`: lexicographic over the fields
in declaration order `(name, start, end, count)`; `output.sort()` sorts
ascending by it. -/
def regionLE (a b : OutputRegion) : Prop :=
  strLt a.name b.name = true ∨
    (a.name = b.name ∧
      (a.start < b.start ∨
        (a.start = b.start ∧
          (a.end_ < b.end_ ∨
            (a.end_ = b.end_ ∧ a.count ≤ b.count)))))

instance : DecidableRel regionLE := fun a b => by
  unfold regionLE
  infer_instance

theorem regionLE_total (a b : OutputRegion) : regionLE a b ∨ regionLE b a := by
  unfold regionLE
  rcases strLt_total a.name b.name with h | h | h
  · exact Or.inl (Or.inl h)
  · exact Or.inr (Or.inl h)
  · have key : (a.start < b.start ∨ (a.start = b.start ∧
        (a.end_ < b.end_ ∨ (a.end_ = b.end_ ∧ a.count ≤ b.count)))) ∨
        (b.start < a.start ∨ (b.start = a.start ∧
          (b.end_ < a.end_ ∨ (b.end_ = a.end_ ∧ b.count ≤ a.count)))) := by
      omega
    rcases key with hk | hk
    · exact Or.inl (Or.inr ⟨h, hk⟩)
    · exact Or.inr (Or.inr ⟨h.symm, hk⟩)

theorem regionLE_trans {a b c : OutputRegion} (h1 : regionLE a b)
    (h2 : regionLE b c) : regionLE a c := by
  unfold regionLE at *
  rcases h1 with h1 | ⟨e1, h1⟩
  · rcases h2 with h2 | ⟨e2, h2⟩
    · exact Or.inl (strLt_trans h1 h2)
    · exact Or.inl (e2 ▸ h1)
  · rcases h2 with h2 | ⟨e2, h2⟩
    · exact Or.inl (e1 ▸ h2)
    · refine Or.inr ⟨e1.trans e2, ?_⟩
      omega

instance : IsTotal OutputRegion regionLE :=
  ⟨regionLE_total⟩

instance : IsTrans OutputRegion regionLE :=
  ⟨fun _ _ _ h1 h2 => regionLE_trans h1 h2⟩

/-- Models `output.sort()`.  Rust's sort is a stable sort by the derived
`Ord`; since the key `(name, start, end, count)` covers every field of
`OutputRegion`, elements comparing equal are identical, so every correct
sort produces this exact list. -/
def sortRows (rows : List OutputRegion) : List OutputRegion :=
  rows.insertionSort regionLE

theorem regionLE_name {a b : OutputRegion} (h : regionLE a b) :
    strLt a.name b.name = true ∨ a.name = b.name := by
  rcases h with h | ⟨e, _⟩
  · exact Or.inl h
  · exact Or.inr e

theorem name_eq_of_between {x z y : OutputRegion} (hxz : regionLE x z)
    (hzy : regionLE z y) (hxy : x.name = y.name) : z.name = x.name := by
  rcases regionLE_name hxz with h1 | h1
  · rcases regionLE_name hzy with h2 | h2
    · have := strLt_trans h1 h2
      rw [← hxy] at this
      rw [strLt_irrefl] at this
      exact absurd this (by simp)
    · rw [h2, ← hxy] at h1
      rw [strLt_irrefl] at h1
      exact absurd h1 (by simp)
  · exact h1.symm

theorem sorted_name_between {l : List OutputRegion}
    (hs : l.Sorted regionLE) :
    ∀ pre mid post x y, l = pre ++ x :: (mid ++ y :: post) →
      x.name = y.name → ∀ z ∈ mid, z.name = x.name := by
  intro pre mid post x y hl hxy z hz
  subst hl
  have hsub : (x :: (mid ++ y :: post)).Pairwise regionLE :=
    hs.sublist (List.sublist_append_right pre _)
  have hxz : regionLE x z :=
    (List.pairwise_cons.mp hsub).1 z (List.mem_append_left _ hz)
  have htail : (mid ++ y :: post).Pairwise regionLE :=
    (List.pairwise_cons.mp hsub).2
  have hzy : regionLE z y :=
    (List.pairwise_append.mp htail).2.2 z hz y (List.mem_cons_self _ _)
  exact name_eq_of_between hxz hzy hxy

/-- C4: `output.sort()` sorts the drained rows ascending by the composite
key `(name, start, end, count)` — the result is pairwise ordered by the
derived lexicographic order and is a permutation of the input — and in the
sorted list any row lying between two rows of equal name carries that same
name, so rows sharing a name are contiguous. -/
theorem c4_sort_key (rows : List OutputRegion) :
    (sortRows rows).Sorted regionLE ∧ (sortRows rows).Perm rows ∧
      ∀ pre mid post x y, sortRows rows = pre ++ x :: (mid ++ y :: post) →
        x.name = y.name → ∀ z ∈ mid, z.name = x.name := by
  refine ⟨List.sorted_insertionSort regionLE rows,
    List.perm_insertionSort regionLE rows, ?_⟩
  exact sorted_name_between (List.sorted_insertionSort regionLE rows)

/-- Witness for C4 at a concrete input: sorting `[B(5,6), A(1,2), B(3,4)]`
yields `[A(1,2), B(3,4), B(5,6)]`, and the row between the two `B` rows is
a `B` row. -/
theorem c4_sort_key_witness :
    (⟨"B", 3, 4, 7⟩ : OutputRegion).name = (⟨"B", 1, 2, 0⟩ : OutputRegion).name :=
  (c4_sort_key [⟨"B", 5, 6, 0⟩, ⟨"A", 1, 2, 0⟩, ⟨"B", 1, 2, 0⟩, ⟨"B", 3, 4, 7⟩]).2.2
    [⟨"A", 1, 2, 0⟩] [⟨"B", 3, 4, 7⟩] [] ⟨"B", 1, 2, 0⟩ ⟨"B", 5, 6, 0⟩
    (by decide) (by decide) ⟨"B", 3, 4, 7⟩ (by decide)

/- ### The report fold (per-chromosome output loop) -/

/-- `i64::MAX`, the never-reset initial value of `current_start`. -/
def i64MAX : Int := 2 ^ 63 - 1

/-- `i32::MAX`, the upper bound of the drain query. -/
def i32MAX : Int := 2 ^ 31 - 1

/-- The mutable locals of the report loop: `current_gene`, `total_length`,
`current_start`, `current_end`, `total_count`. -/
structure GroupState where
  current_gene : String
  total_length : Int
  current_start : Int
  current_end : Int
  total_count : Int
deriving DecidableEq, Repr

/-- Their initial values: `("", 0, i64::MAX, 0, 0)`. -/
def initGroup : GroupState :=
  ⟨"", 0, i64MAX, 0, 0⟩

/-- One emitted output line (sample column omitted: it is a constant).
`count` is the numerator used in the depth computation (`region.count` for
Amplicon rows, `total_count` for Whole-Gene rows).  `depth` is modelled in
`ℚ`; Rust prints an `f64`, and division by zero — possible only for
Amplicon rows of zero length — yields `inf`/`NaN` there, `0` here.  No
claim under study depends on the value of a zero-length division. -/
structure EmitRow where
  gene : String
  chrom : String
  start : Int
  end_ : Int
  tag : String
  length : Int
  count : Int
  depth : ℚ
deriving DecidableEq, Repr

/-- The aggregated `Whole-Gene` line:
`mean_depth = if total_length > 0 { total_count / total_length } else 0.0`,
with `Start`/`End` from `current_start`/`current_end`. -/
def wgRow (chrom : String) (st : GroupState) : EmitRow :=
  ⟨st.current_gene, chrom, st.current_start, st.current_end, "Whole-Gene",
    st.total_length, st.total_count,
    if st.total_length > 0 then
      (st.total_count : ℚ) / (st.total_length : ℚ)
    else 0⟩

/-- `region.end - region.start + 1` under `mimic_perl_output`, else without
the `+ 1`. -/
def regionLength (m : Bool) (r : OutputRegion) : Int :=
  if m then r.end_ - r.start + 1 else r.end_ - r.start

/-- The per-region `Amplicon` line with `depth = count / length`. -/
def ampliconRow (m : Bool) (chrom : String) (r : OutputRegion) : EmitRow :=
  ⟨r.name, chrom, r.start, r.end_, "Amplicon", regionLength m r, r.count,
    (r.count : ℚ) / (regionLength m r : ℚ)⟩

/-- One iteration of `for region in output.iter()`: on a name change close
out the previous group (guarded by `!current_gene.is_empty()`) and reset the
group state, then update `current_end`, emit the Amplicon row, and
accumulate `total_length`/`total_count`. -/
def stepRow (m : Bool) (chrom : String) (st : GroupState)
    (r : OutputRegion) : GroupState × List EmitRow :=
  let closed : List EmitRow :=
    if r.name ≠ st.current_gene ∧ st.current_gene ≠ "" then [wgRow chrom st]
    else []
  let st1 : GroupState :=
    if r.name ≠ st.current_gene then ⟨r.name, 0, r.start, 0, 0⟩ else st
  let ce := if r.end_ > st1.current_end then r.end_ else st1.current_end
  (⟨st1.current_gene, st1.total_length + regionLength m r, st1.current_start,
      ce, st1.total_count + r.count⟩,
    closed ++ [ampliconRow m chrom r])

/-- The whole per-chromosome loop from an arbitrary group state, ending with
the unconditional final Whole-Gene row. -/
def reportAux (m : Bool) (chrom : String) :
    GroupState → List OutputRegion → List EmitRow
  | st, [] => [wgRow chrom st]
  | st, r :: rest =>
    (stepRow m chrom st r).2 ++ reportAux m chrom (stepRow m chrom st r).1 rest

/-- The per-chromosome report: fold the sorted rows from the initial group
state. -/
def reportChrom (m : Bool) (chrom : String) (rows : List OutputRegion) :
    List EmitRow :=
  reportAux m chrom initGroup rows

/- ### C3/C10 infrastructure -/

/-- Number of Whole-Gene rows in an output fragment. -/
def wgCount (out : List EmitRow) : Nat :=
  (out.filter fun r => r.tag = "Whole-Gene").length

/-- Number of close-outs the loop performs on a name sequence, starting from
current group name `g`: a row triggers one exactly when its name differs
from the current group's name and that name is non-empty. -/
def boundaryCountFrom (g : String) : List String → Nat
  | [] => 0
  | a :: rest =>
    (if a ≠ g ∧ g ≠ "" then 1 else 0) + boundaryCountFrom a rest

/-- The pure accumulation part of `stepRow` (no name change). -/
def accumState (m : Bool) (st : GroupState) (r : OutputRegion) : GroupState :=
  ⟨st.current_gene, st.total_length + regionLength m r, st.current_start,
    if r.end_ > st.current_end then r.end_ else st.current_end,
    st.total_count + r.count⟩

theorem stepRow_gene (m : Bool) (chrom : String) (st : GroupState)
    (r : OutputRegion) : (stepRow m chrom st r).1.current_gene = r.name := by
  unfold stepRow
  by_cases h : r.name = st.current_gene <;> simp [h]

theorem stepRow_same_gene (m : Bool) (chrom : String) (st : GroupState)
    (r : OutputRegion) (h : r.name = st.current_gene) :
    stepRow m chrom st r = (accumState m st r, [ampliconRow m chrom r]) := by
  unfold stepRow accumState
  simp [h]

theorem wgCount_append (l1 l2 : List EmitRow) :
    wgCount (l1 ++ l2) = wgCount l1 + wgCount l2 := by
  simp [wgCount, List.filter_append]

theorem wgCount_reportAux (m : Bool) (chrom : String) :
    ∀ (rows : List OutputRegion) (st : GroupState),
      wgCount (reportAux m chrom st rows) =
        boundaryCountFrom st.current_gene (rows.map fun r => r.name) + 1 := by
  intro rows
  induction rows with
  | nil =>
    intro st
    simp [reportAux, wgCount, boundaryCountFrom, wgRow]
  | cons r rest ih =>
    intro st
    simp only [reportAux]
    rw [wgCount_append, ih, stepRow_gene]
    have hstep : wgCount (stepRow m chrom st r).2 =
        if r.name ≠ st.current_gene ∧ st.current_gene ≠ "" then 1 else 0 := by
      unfold stepRow
      by_cases h : r.name ≠ st.current_gene ∧ st.current_gene ≠ "" <;>
        simp [h, wgCount, wgRow, ampliconRow]
    rw [hstep]
    simp only [List.map_cons, boundaryCountFrom]
    omega

theorem reportAux_wg_depth (m : Bool) (chrom : String) :
    ∀ (rows : List OutputRegion) (st : GroupState) (r : EmitRow),
      r ∈ reportAux m chrom st rows → r.tag = "Whole-Gene" →
      r.depth = if 0 < r.length then (r.count : ℚ) / (r.length : ℚ) else 0 := by
  intro rows
  induction rows with
  | nil =>
    intro st r hr htag
    simp only [reportAux, List.mem_singleton] at hr
    subst hr
    simp [wgRow]
  | cons q rest ih =>
    intro st r hr htag
    simp only [reportAux, List.mem_append] at hr
    rcases hr with hr | hr
    · simp only [stepRow] at hr
      rcases List.mem_append.mp hr with hr2 | hr2
      · by_cases hc : q.name ≠ st.current_gene ∧ st.current_gene ≠ ""
        · rw [if_pos hc] at hr2
          simp only [List.mem_singleton] at hr2
          subst hr2
          simp [wgRow]
        · rw [if_neg hc] at hr2
          simp at hr2
      · simp only [List.mem_singleton] at hr2
        subst hr2
        exact absurd htag (by simp [ampliconRow])
    · exact ih _ r hr htag

theorem reportAux_group_run (m : Bool) (chrom : String) :
    ∀ (grp rest2 : List OutputRegion) (st : GroupState),
      (∀ r ∈ grp, r.name = st.current_gene) →
      reportAux m chrom st (grp ++ rest2) =
        grp.map (ampliconRow m chrom) ++
          reportAux m chrom (grp.foldl (accumState m) st) rest2 := by
  intro grp
  induction grp with
  | nil =>
    intro rest2 st _
    simp
  | cons r grp' ih =>
    intro rest2 st h
    have hr : r.name = st.current_gene := h r (List.mem_cons_self _ _)
    have hnames : ∀ r' ∈ grp', r'.name = (accumState m st r).current_gene :=
      fun r' hr' => h r' (List.mem_cons_of_mem _ hr')
    have step1 : reportAux m chrom st ((r :: grp') ++ rest2) =
        (stepRow m chrom st r).2 ++
          reportAux m chrom (stepRow m chrom st r).1 (grp' ++ rest2) := rfl
    rw [step1, stepRow_same_gene m chrom st r hr, ih rest2 _ hnames]
    simp

theorem foldl_accum_gene (m : Bool) :
    ∀ (rows : List OutputRegion) (st : GroupState),
      (rows.foldl (accumState m) st).current_gene = st.current_gene := by
  intro rows
  induction rows with
  | nil => intro st; rfl
  | cons r rest ih => intro st; exact ih (accumState m st r)

theorem foldl_accum_start (m : Bool) :
    ∀ (rows : List OutputRegion) (st : GroupState),
      (rows.foldl (accumState m) st).current_start = st.current_start := by
  intro rows
  induction rows with
  | nil => intro st; rfl
  | cons r rest ih => intro st; exact ih (accumState m st r)

theorem foldl_accum_length (m : Bool) :
    ∀ (rows : List OutputRegion) (st : GroupState),
      (rows.foldl (accumState m) st).total_length =
        st.total_length + (rows.map (regionLength m)).sum := by
  intro rows
  induction rows with
  | nil => intro st; simp
  | cons r rest ih =>
    intro st
    simp only [List.foldl_cons, List.map_cons, List.sum_cons]
    rw [ih]
    unfold accumState
    simp only
    omega

theorem foldl_accum_count (m : Bool) :
    ∀ (rows : List OutputRegion) (st : GroupState),
      (rows.foldl (accumState m) st).total_count =
        st.total_count + (rows.map fun r => r.count).sum := by
  intro rows
  induction rows with
  | nil => intro st; simp
  | cons r rest ih =>
    intro st
    simp only [List.foldl_cons, List.map_cons, List.sum_cons]
    rw [ih]
    unfold accumState
    simp only
    omega

theorem foldl_accum_end (m : Bool) :
    ∀ (rows : List OutputRegion) (st : GroupState),
      (rows.foldl (accumState m) st).current_end =
        rows.foldl (fun acc r => if r.end_ > acc then r.end_ else acc)
          st.current_end := by
  intro rows
  induction rows with
  | nil => intro st; rfl
  | cons r rest ih =>
    intro st
    simp only [List.foldl_cons]
    rw [ih]
    rfl

/-- Field values of a Whole-Gene row built by accumulating a row list from
a freshly reset group state `(g0, 0, s0, 0, 0)`. -/
theorem wgRow_foldl_fields (m : Bool) (chrom : String)
    (L : List OutputRegion) (g0 : String) (s0 : Int) :
    (wgRow chrom (L.foldl (accumState m) ⟨g0, 0, s0, 0, 0⟩)).gene = g0 ∧
      (wgRow chrom (L.foldl (accumState m) ⟨g0, 0, s0, 0, 0⟩)).start = s0 ∧
      (wgRow chrom (L.foldl (accumState m) ⟨g0, 0, s0, 0, 0⟩)).end_ =
        L.foldl (fun acc x => if x.end_ > acc then x.end_ else acc) 0 ∧
      (wgRow chrom (L.foldl (accumState m) ⟨g0, 0, s0, 0, 0⟩)).length =
        (L.map (regionLength m)).sum ∧
      (wgRow chrom (L.foldl (accumState m) ⟨g0, 0, s0, 0, 0⟩)).count =
        (L.map fun x => x.count).sum := by
  refine ⟨?_, ?_, ?_, ?_, ?_⟩
  · show (L.foldl (accumState m) ⟨g0, 0, s0, 0, 0⟩).current_gene = g0
    rw [foldl_accum_gene]
  · show (L.foldl (accumState m) ⟨g0, 0, s0, 0, 0⟩).current_start = s0
    rw [foldl_accum_start]
  · show (L.foldl (accumState m) ⟨g0, 0, s0, 0, 0⟩).current_end = _
    rw [foldl_accum_end]
  · show (L.foldl (accumState m) ⟨g0, 0, s0, 0, 0⟩).total_length = _
    rw [foldl_accum_length]
    simp
  · show (L.foldl (accumState m) ⟨g0, 0, s0, 0, 0⟩).total_count = _
    rw [foldl_accum_count]
    simp

/-- Every Whole-Gene row of `reportAux`, run from a state that is the
accumulation of an already-seen partial group `grpA` (all named `g`, with
span start `s0`), either closes that carried group — extended by the
longest equal-named block at the front of `rows`, the close falling at the
list's end or at the first differently-named row — or closes a group
opened by a reset inside `rows`: a contiguous block `r0 :: grp'` of rows
sharing `r0.name`, again closed at the end or at the first
differently-named row, the row being exactly the accumulation of that
block from the reset state `(r0.name, 0, r0.start, 0, 0)`. -/
theorem wg_rows_span (m : Bool) (chrom : String) :
    ∀ (rows grpA : List OutputRegion) (g : String) (s0 : Int),
      (∀ x ∈ grpA, x.name = g) →
      ∀ r ∈ reportAux m chrom
        (grpA.foldl (accumState m) ⟨g, 0, s0, 0, 0⟩) rows,
        r.tag = "Whole-Gene" →
        (∃ grp post, rows = grp ++ post ∧ (∀ x ∈ grp, x.name = g) ∧
          (post = [] ∨ ∃ q qs, post = q :: qs ∧ q.name ≠ g) ∧
          r = wgRow chrom
            ((grpA ++ grp).foldl (accumState m) ⟨g, 0, s0, 0, 0⟩)) ∨
        ∃ pre r0 grp' post, rows = pre ++ ((r0 :: grp') ++ post) ∧
          (∀ x ∈ grp', x.name = r0.name) ∧
          (post = [] ∨ ∃ q qs, post = q :: qs ∧ q.name ≠ r0.name) ∧
          r = wgRow chrom ((r0 :: grp').foldl (accumState m)
            ⟨r0.name, 0, r0.start, 0, 0⟩) := by
  intro rows
  induction rows with
  | nil =>
    intro grpA g s0 hA r hr htag
    left
    simp only [reportAux, List.mem_singleton] at hr
    refine ⟨[], [], rfl, by simp, Or.inl rfl, ?_⟩
    rw [List.append_nil]
    exact hr
  | cons q rest ih =>
    intro grpA g s0 hA r hr htag
    have hgene : (grpA.foldl (accumState m)
        ⟨g, 0, s0, 0, 0⟩).current_gene = g := by
      rw [foldl_accum_gene]
    by_cases hq : q.name = g
    · have hstep := stepRow_same_gene m chrom
        (grpA.foldl (accumState m) ⟨g, 0, s0, 0, 0⟩) q (by rw [hgene]; exact hq)
      have h2 : (stepRow m chrom
          (grpA.foldl (accumState m) ⟨g, 0, s0, 0, 0⟩) q).2 =
          [ampliconRow m chrom q] := by
        rw [hstep]
      have h1 : (stepRow m chrom
          (grpA.foldl (accumState m) ⟨g, 0, s0, 0, 0⟩) q).1 =
          accumState m (grpA.foldl (accumState m) ⟨g, 0, s0, 0, 0⟩) q := by
        rw [hstep]
      simp only [reportAux] at hr
      rw [h2, h1] at hr
      rcases List.mem_append.mp hr with hr2 | hr2
      · simp only [List.mem_singleton] at hr2
        subst hr2
        exact absurd htag (by simp [ampliconRow])
      · have hfold : accumState m
            (grpA.foldl (accumState m) ⟨g, 0, s0, 0, 0⟩) q =
            (grpA ++ [q]).foldl (accumState m) ⟨g, 0, s0, 0, 0⟩ := by
          rw [List.foldl_append]
          rfl
        rw [hfold] at hr2
        have hA' : ∀ x ∈ grpA ++ [q], x.name = g := by
          intro x hx
          rcases List.mem_append.mp hx with hx | hx
          · exact hA x hx
          · simp only [List.mem_singleton] at hx
            rw [hx]
            exact hq
        rcases ih (grpA ++ [q]) g s0 hA' r hr2 htag with hcase | hcase
        · left
          obtain ⟨grp, post, hrows, hnames, hpost, hrwg⟩ := hcase
          refine ⟨q :: grp, post, by simp [hrows], ?_, hpost, ?_⟩
          · intro x hx
            rcases List.mem_cons.mp hx with rfl | hx
            · exact hq
            · exact hnames x hx
          · rw [hrwg]
            have hl : (grpA ++ [q]) ++ grp = grpA ++ (q :: grp) := by simp
            rw [hl]
        · right
          obtain ⟨pre, r0, grp', post, hrows, hnames, hpost, hrwg⟩ := hcase
          exact ⟨q :: pre, r0, grp', post, by simp [hrows], hnames, hpost, hrwg⟩
    · have hstep : stepRow m chrom
          (grpA.foldl (accumState m) ⟨g, 0, s0, 0, 0⟩) q =
          (accumState m ⟨q.name, 0, q.start, 0, 0⟩ q,
            (if g ≠ "" then
              [wgRow chrom (grpA.foldl (accumState m) ⟨g, 0, s0, 0, 0⟩)]
            else []) ++ [ampliconRow m chrom q]) := by
        simp only [stepRow]
        rw [hgene]
        simp [hq, accumState]
      have h2 : (stepRow m chrom
          (grpA.foldl (accumState m) ⟨g, 0, s0, 0, 0⟩) q).2 =
          (if g ≠ "" then
            [wgRow chrom (grpA.foldl (accumState m) ⟨g, 0, s0, 0, 0⟩)]
          else []) ++ [ampliconRow m chrom q] := by
        rw [hstep]
      have h1 : (stepRow m chrom
          (grpA.foldl (accumState m) ⟨g, 0, s0, 0, 0⟩) q).1 =
          accumState m ⟨q.name, 0, q.start, 0, 0⟩ q := by
        rw [hstep]
      simp only [reportAux] at hr
      rw [h2, h1] at hr
      rcases List.mem_append.mp hr with hr2 | hr2
      · rcases List.mem_append.mp hr2 with hr3 | hr3
        · by_cases hg : g ≠ ""
          · rw [if_pos hg] at hr3
            simp only [List.mem_singleton] at hr3
            left
            refine ⟨[], q :: rest, rfl, by simp,
              Or.inr ⟨q, rest, rfl, hq⟩, ?_⟩
            rw [List.append_nil]
            exact hr3
          · rw [if_neg hg] at hr3
            simp at hr3
        · simp only [List.mem_singleton] at hr3
          subst hr3
          exact absurd htag (by simp [ampliconRow])
      · have hfold : accumState m ⟨q.name, 0, q.start, 0, 0⟩ q =
            ([q] : List OutputRegion).foldl (accumState m)
              ⟨q.name, 0, q.start, 0, 0⟩ := rfl
        rw [hfold] at hr2
        rcases ih [q] q.name q.start (by simp) r hr2 htag with hcase | hcase
        · right
          obtain ⟨grp, post, hrows, hnames, hpost, hrwg⟩ := hcase
          refine ⟨[], q, grp, post, by simp [hrows], hnames, hpost, ?_⟩
          exact hrwg
        · right
          obtain ⟨pre, r0, grp', post, hrows, hnames, hpost, hrwg⟩ := hcase
          exact ⟨q :: pre, r0, grp', post, by simp [hrows], hnames, hpost, hrwg⟩

theorem filter_wg_map_amplicon (m : Bool) (chrom : String)
    (rows : List OutputRegion) :
    (rows.map (ampliconRow m chrom)).filter
      (fun r => r.tag = "Whole-Gene") = [] := by
  induction rows with
  | nil => rfl
  | cons r rest ih => simp [ampliconRow, ih]

theorem reportAux_reset_indep (m : Bool) (chrom : String)
    (st st' : GroupState) (h : st.current_gene = "")
    (h' : st'.current_gene = "") (r0 : OutputRegion)
    (rest : List OutputRegion) (h0 : r0.name ≠ "") :
    reportAux m chrom st (r0 :: rest) = reportAux m chrom st' (r0 :: rest) := by
  show (stepRow m chrom st r0).2 ++
      reportAux m chrom (stepRow m chrom st r0).1 rest =
    (stepRow m chrom st' r0).2 ++
      reportAux m chrom (stepRow m chrom st' r0).1 rest
  have hstep : stepRow m chrom st r0 = stepRow m chrom st' r0 := by
    unfold stepRow
    rw [h, h']
    simp [h0]
  rw [hstep]

/-- C3 (amended): within each chromosome's report, (1) the number of
Whole-Gene rows is the number of rows whose name differs from the current
group's name while that name is non-empty, plus the one unconditional final
row — the close-out guard in the source is `!current_gene.is_empty()`, not
"except before the very first group", and the two differ when a group is
named by the empty string; (2) every Whole-Gene row carries
`mean_depth = summed_overlap / summed_length` when `summed_length > 0` and
`0.0` otherwise; (3) for a chromosome whose rows all share one non-empty
name, the report is the Amplicon rows followed by one Whole-Gene row whose
Start is the first row's start, whose End is the running maximum of row
ends, and whose Length/count are the summed lengths and overlaps;
(4) in general — multi-group chromosomes and close-out rows included —
every Whole-Gene row closes a contiguous block of rows sharing its gene
name ending at the chromosome's last row or at the first differently-named
row, and carries Start = that group's span_start (the first group row's
start, assigned at the reset; `i64::MAX` for the never-reset leading
empty-named group), End = the running maximum of the group's row ends, and
Length/count = the group's summed lengths and overlaps. -/
theorem c3_whole_gene_rows :
    (∀ (m : Bool) (chrom : String) (rows : List OutputRegion),
        wgCount (reportChrom m chrom rows) =
          boundaryCountFrom "" (rows.map fun r => r.name) + 1) ∧
      (∀ (m : Bool) (chrom : String) (rows : List OutputRegion) (r : EmitRow),
        r ∈ reportChrom m chrom rows → r.tag = "Whole-Gene" →
        r.depth = if 0 < r.length then (r.count : ℚ) / (r.length : ℚ) else 0) ∧
      (∀ (m : Bool) (chrom : String) (r0 : OutputRegion)
        (rest : List OutputRegion), r0.name ≠ "" →
        (∀ r ∈ rest, r.name = r0.name) →
        reportChrom m chrom (r0 :: rest) =
          (r0 :: rest).map (ampliconRow m chrom) ++
            [⟨r0.name, chrom, r0.start,
              (r0 :: rest).foldl
                (fun acc r => if r.end_ > acc then r.end_ else acc) 0,
              "Whole-Gene", ((r0 :: rest).map (regionLength m)).sum,
              ((r0 :: rest).map fun r => r.count).sum,
              if 0 < ((r0 :: rest).map (regionLength m)).sum then
                ((((r0 :: rest).map fun r => r.count).sum : Int) : ℚ) /
                  ((((r0 :: rest).map (regionLength m)).sum : Int) : ℚ)
              else 0⟩]) ∧
      ∀ (m : Bool) (chrom : String) (rows : List OutputRegion) (r : EmitRow),
        r ∈ reportChrom m chrom rows → r.tag = "Whole-Gene" →
        (∃ pre r0 grp' post, rows = pre ++ ((r0 :: grp') ++ post) ∧
          r.gene = r0.name ∧ (∀ x ∈ grp', x.name = r0.name) ∧
          (post = [] ∨ ∃ q qs, post = q :: qs ∧ q.name ≠ r0.name) ∧
          r.start = r0.start ∧
          r.end_ = (r0 :: grp').foldl
            (fun acc x => if x.end_ > acc then x.end_ else acc) 0 ∧
          r.length = ((r0 :: grp').map (regionLength m)).sum ∧
          r.count = ((r0 :: grp').map fun x => x.count).sum) ∨
        ∃ grp post, rows = grp ++ post ∧ r.gene = "" ∧
          (∀ x ∈ grp, x.name = "") ∧
          (post = [] ∨ ∃ q qs, post = q :: qs ∧ q.name ≠ "") ∧
          r.start = i64MAX ∧
          r.end_ = grp.foldl
            (fun acc x => if x.end_ > acc then x.end_ else acc) 0 ∧
          r.length = (grp.map (regionLength m)).sum ∧
          r.count = (grp.map fun x => x.count).sum := by
  refine ⟨?_, ?_, ?_, ?_⟩
  · intro m chrom rows
    exact wgCount_reportAux m chrom rows initGroup
  · intro m chrom rows r hr htag
    exact reportAux_wg_depth m chrom rows initGroup r hr htag
  · intro m chrom r0 rest h0 hrest
    have hb : stepRow m chrom initGroup r0 =
        (accumState m ⟨r0.name, 0, r0.start, 0, 0⟩ r0,
          [ampliconRow m chrom r0]) := by
      unfold stepRow accumState initGroup
      simp [h0]
    have step1 : reportChrom m chrom (r0 :: rest) =
        (stepRow m chrom initGroup r0).2 ++
          reportAux m chrom (stepRow m chrom initGroup r0).1 rest := rfl
    have hnames : ∀ r ∈ rest,
        r.name = (accumState m ⟨r0.name, 0, r0.start, 0, 0⟩ r0).current_gene :=
      fun r hr => hrest r hr
    have hgp : reportAux m chrom
        (accumState m ⟨r0.name, 0, r0.start, 0, 0⟩ r0) rest =
        rest.map (ampliconRow m chrom) ++
          [wgRow chrom (rest.foldl (accumState m)
            (accumState m ⟨r0.name, 0, r0.start, 0, 0⟩ r0))] := by
      conv_lhs => rw [← List.append_nil rest]
      rw [reportAux_group_run m chrom rest [] _ hnames]
      rfl
    rw [step1, hb]
    simp only
    rw [hgp]
    have hgene : (rest.foldl (accumState m)
        (accumState m ⟨r0.name, 0, r0.start, 0, 0⟩ r0)).current_gene =
        r0.name := by
      rw [foldl_accum_gene]
      rfl
    have hstart : (rest.foldl (accumState m)
        (accumState m ⟨r0.name, 0, r0.start, 0, 0⟩ r0)).current_start =
        r0.start := by
      rw [foldl_accum_start]
      rfl
    have hend : (rest.foldl (accumState m)
        (accumState m ⟨r0.name, 0, r0.start, 0, 0⟩ r0)).current_end =
        (r0 :: rest).foldl
          (fun acc r => if r.end_ > acc then r.end_ else acc) 0 := by
      rw [foldl_accum_end]
      rfl
    have hlen : (rest.foldl (accumState m)
        (accumState m ⟨r0.name, 0, r0.start, 0, 0⟩ r0)).total_length =
        ((r0 :: rest).map (regionLength m)).sum := by
      rw [foldl_accum_length]
      have h1 : (accumState m ⟨r0.name, 0, r0.start, 0, 0⟩ r0).total_length =
          regionLength m r0 := by
        simp [accumState]
      rw [h1]
      simp
    have hcount : (rest.foldl (accumState m)
        (accumState m ⟨r0.name, 0, r0.start, 0, 0⟩ r0)).total_count =
        ((r0 :: rest).map fun r => r.count).sum := by
      rw [foldl_accum_count]
      have h1 : (accumState m ⟨r0.name, 0, r0.start, 0, 0⟩ r0).total_count =
          r0.count := by
        simp [accumState]
      rw [h1]
      simp
    have hwg : wgRow chrom (rest.foldl (accumState m)
        (accumState m ⟨r0.name, 0, r0.start, 0, 0⟩ r0)) =
        ⟨r0.name, chrom, r0.start,
          (r0 :: rest).foldl
            (fun acc r => if r.end_ > acc then r.end_ else acc) 0,
          "Whole-Gene", ((r0 :: rest).map (regionLength m)).sum,
          ((r0 :: rest).map fun r => r.count).sum,
          if 0 < ((r0 :: rest).map (regionLength m)).sum then
            ((((r0 :: rest).map fun r => r.count).sum : Int) : ℚ) /
              ((((r0 :: rest).map (regionLength m)).sum : Int) : ℚ)
          else 0⟩ := by
      unfold wgRow
      rw [hgene, hstart, hend, hlen, hcount]
    rw [hwg]
    simp
  · intro m chrom rows r hr htag
    rcases wg_rows_span m chrom rows [] "" i64MAX (by simp) r hr htag with
      hcase | hcase
    · right
      obtain ⟨grp, post, hrows, hnames, hpost, hrwg⟩ := hcase
      rw [List.nil_append] at hrwg
      obtain ⟨hf1, hf2, hf3, hf4, hf5⟩ := wgRow_foldl_fields m chrom grp "" i64MAX
      exact ⟨grp, post, hrows, by rw [hrwg]; exact hf1, hnames, hpost,
        by rw [hrwg]; exact hf2, by rw [hrwg]; exact hf3,
        by rw [hrwg]; exact hf4, by rw [hrwg]; exact hf5⟩
    · left
      obtain ⟨pre, r0, grp', post, hrows, hnames, hpost, hrwg⟩ := hcase
      obtain ⟨hf1, hf2, hf3, hf4, hf5⟩ :=
        wgRow_foldl_fields m chrom (r0 :: grp') r0.name r0.start
      exact ⟨pre, r0, grp', post, hrows, by rw [hrwg]; exact hf1, hnames,
        hpost, by rw [hrwg]; exact hf2, by rw [hrwg]; exact hf3,
        by rw [hrwg]; exact hf4, by rw [hrwg]; exact hf5⟩

/-- Counterexample to C3 as stated: for sorted rows
`[{name:"", 0, 5, 3}, {name:"A", 5, 10, 4}]` the second row's name differs
from the current group's name and the first group has already started, so
the claim predicts a close-out Whole-Gene row for the first group plus the
final row (2 in total); the code's `!current_gene.is_empty()` guard
suppresses the close-out, so exactly one Whole-Gene row is emitted and its
gene is `"A"` — none is ever emitted for the `""`-named group. -/
theorem c3_counterexample :
    wgCount (reportChrom true "chr1" [⟨"", 0, 5, 3⟩, ⟨"A", 5, 10, 4⟩]) = 1 ∧
      ((reportChrom true "chr1" [⟨"", 0, 5, 3⟩, ⟨"A", 5, 10, 4⟩]).filter
          fun r => r.tag = "Whole-Gene").map (fun r => r.gene) = ["A"] := by
  constructor
  · decide
  · decide

/-- Witness for C3 (amended), third conjunct, at a single-row group. -/
theorem c3_whole_gene_rows_witness :
    reportChrom true "c" [⟨"G1", 0, 5, 3⟩] =
      ([⟨"G1", 0, 5, 3⟩] : List OutputRegion).map (ampliconRow true "c") ++
        [⟨"G1", "c", 0,
          ([⟨"G1", 0, 5, 3⟩] : List OutputRegion).foldl
            (fun acc r => if r.end_ > acc then r.end_ else acc) 0,
          "Whole-Gene",
          (([⟨"G1", 0, 5, 3⟩] : List OutputRegion).map (regionLength true)).sum,
          (([⟨"G1", 0, 5, 3⟩] : List OutputRegion).map fun r => r.count).sum,
          if 0 < (([⟨"G1", 0, 5, 3⟩] : List OutputRegion).map
              (regionLength true)).sum then
            (((([⟨"G1", 0, 5, 3⟩] : List OutputRegion).map
                fun r => r.count).sum : Int) : ℚ) /
              (((([⟨"G1", 0, 5, 3⟩] : List OutputRegion).map
                (regionLength true)).sum : Int) : ℚ)
          else 0⟩] :=
  c3_whole_gene_rows.2.2.1 true "c" ⟨"G1", 0, 5, 3⟩ [] (by decide)
    (by intro r hr; simp at hr)

/-- C10: a group name is never opened by an empty-named row.  First
conjunct: when every row of a chromosome is empty-named, no reset ever
fires, so exactly one Whole-Gene row is emitted (the unconditional final
one) and it carries an empty gene and `Start = i64::MAX`, the never-reset
initial value.  Second conjunct: empty-named rows at the front of the
sorted output contribute only their Amplicon rows — the report is otherwise
identical to the report without them, so they yield no Whole-Gene row of
their own. -/
theorem c10_empty_names :
    (∀ (m : Bool) (chrom : String) (rows : List OutputRegion),
        (∀ r ∈ rows, r.name = "") →
        (reportChrom m chrom rows).filter (fun r => r.tag = "Whole-Gene") =
            [wgRow chrom (rows.foldl (accumState m) initGroup)] ∧
          (wgRow chrom (rows.foldl (accumState m) initGroup)).gene = "" ∧
          (wgRow chrom (rows.foldl (accumState m) initGroup)).start =
            i64MAX) ∧
      ∀ (m : Bool) (chrom : String) (empties : List OutputRegion)
        (r0 : OutputRegion) (rest : List OutputRegion),
        (∀ r ∈ empties, r.name = "") → r0.name ≠ "" →
        reportChrom m chrom (empties ++ r0 :: rest) =
          empties.map (ampliconRow m chrom) ++
            reportChrom m chrom (r0 :: rest) := by
  constructor
  · intro m chrom rows hnames
    have hnames' : ∀ r ∈ rows, r.name = initGroup.current_gene := hnames
    have hgp : reportChrom m chrom rows =
        rows.map (ampliconRow m chrom) ++
          [wgRow chrom (rows.foldl (accumState m) initGroup)] := by
      rw [reportChrom]
      conv_lhs => rw [← List.append_nil rows]
      rw [reportAux_group_run m chrom rows [] initGroup hnames']
      rfl
    refine ⟨?_, ?_, ?_⟩
    · rw [hgp, List.filter_append, filter_wg_map_amplicon]
      simp [wgRow]
    · show (rows.foldl (accumState m) initGroup).current_gene = ""
      rw [foldl_accum_gene]
      rfl
    · show (rows.foldl (accumState m) initGroup).current_start = i64MAX
      rw [foldl_accum_start]
      rfl
  · intro m chrom empties r0 rest hemp h0
    have hnames : ∀ r ∈ empties, r.name = initGroup.current_gene := hemp
    rw [reportChrom, reportChrom,
      reportAux_group_run m chrom empties (r0 :: rest) initGroup hnames]
    congr 1
    apply reportAux_reset_indep
    · rw [foldl_accum_gene]
      rfl
    · rfl
    · exact h0

/-- Witness for C10: one empty-named row in front of an `"A"` row adds only
its Amplicon row to the report of the `"A"` row alone. -/
theorem c10_empty_names_witness :
    reportChrom true "c" ([⟨"", 0, 5, 3⟩] ++ [⟨"A", 5, 10, 4⟩]) =
      ([⟨"", 0, 5, 3⟩] : List OutputRegion).map (ampliconRow true "c") ++
        reportChrom true "c" [⟨"A", 5, 10, 4⟩] :=
  c10_empty_names.2 true "c" [⟨"", 0, 5, 3⟩] ⟨"A", 5, 10, 4⟩ []
    (by decide) (by decide)

/- ### The output phase: drain, chromosome order, full pipeline -/

/-- The drain's per-node projection into an `OutputRegion`. -/
def toOutputRegion (n : IntervalNode) : OutputRegion :=
  ⟨n.metadata.name, n.first, n.last, n.metadata.count⟩

/-- `chrom_tree.query(0, i32::MAX, |node| output.push(..))`: every node the
full-range query visits becomes an `OutputRegion`. -/
def drainNodes (ns : List IntervalNode) : List OutputRegion :=
  (ns.filter fun n => overlaps 0 i32MAX n).map toOutputRegion

/-- `Vec::dedup`: removes only CONSECUTIVE duplicate elements. -/
def dedupConsec : List String → List String
  | [] => []
  | [a] => [a]
  | a :: b :: rest =>
    if a = b then dedupConsec (b :: rest) else a :: dedupConsec (b :: rest)

/-- The output phase given the final catalog: for each chromosome of the
deduplicated `bed_chrom_order`, drain, sort, and run the report fold.  The
`none` branch models the `.unwrap()`; it is unreachable because every
chromosome in `bed_chrom_order` has a catalog entry (proved below). -/
def reportOf (m : Bool) (beds : List BedRecord) (cat : Catalog) :
    List EmitRow :=
  (dedupConsec (beds.map fun b => b.chrom)).flatMap fun chrom =>
    match lookupCat cat chrom with
    | some ns => reportChrom m chrom (sortRows (drainNodes ns))
    | none => []

/-- The whole pipeline: read the BED file, process the BAM stream, report. -/
def fullReport (m : Bool) (beds : List BedRecord) (bams : List BamRecord) :
    List EmitRow :=
  reportOf m beds (processBam (buildCatalog beds) bams)

/-- C7: the final state of the accumulation phase — and therefore the whole
report — is invariant under permutation of the BAM record stream, because
`processRecord` is right-commutative (per-region counters only ever add). -/
theorem c7_perm_invariance (m : Bool) (beds : List BedRecord)
    (l1 l2 : List BamRecord) (h : l1.Perm l2) :
    (∀ cat : Catalog, processBam cat l1 = processBam cat l2) ∧
      fullReport m beds l1 = fullReport m beds l2 := by
  refine ⟨fun cat => processBam_perm h cat, ?_⟩
  unfold fullReport
  rw [processBam_perm h]

/-- Witness for C7: swapping two concrete records leaves the report
unchanged. -/
theorem c7_perm_invariance_witness :
    fullReport true [⟨"chr1", 0, 10, "g"⟩]
        [⟨false, 0, "chr1", 1, [.Match 3]⟩, ⟨false, 0, "chr1", 5, [.Match 2]⟩] =
      fullReport true [⟨"chr1", 0, 10, "g"⟩]
        [⟨false, 0, "chr1", 5, [.Match 2]⟩, ⟨false, 0, "chr1", 1, [.Match 3]⟩] :=
  (c7_perm_invariance true [⟨"chr1", 0, 10, "g"⟩] _ _ (by decide)).2

/- ### C2 infrastructure -/

theorem mem_dedupConsec : ∀ (l : List String) (a : String),
    a ∈ dedupConsec l ↔ a ∈ l := by
  intro l
  induction l with
  | nil => intro a; simp [dedupConsec]
  | cons x rest ih =>
    intro a
    cases rest with
    | nil => simp [dedupConsec]
    | cons y ys =>
      by_cases hxy : x = y
      · subst hxy
        have hred : dedupConsec (x :: x :: ys) = dedupConsec (x :: ys) := by
          simp [dedupConsec]
        rw [hred, ih a]
        simp only [List.mem_cons]
        tauto
      · simp only [dedupConsec, if_neg hxy, List.mem_cons]
        rw [ih a]
        simp [List.mem_cons]

theorem dedupConsec_head (y : String) (ys : List String) :
    ∃ t, dedupConsec (y :: ys) = y :: t := by
  induction ys generalizing y with
  | nil => exact ⟨[], rfl⟩
  | cons z zs ih =>
    by_cases hyz : y = z
    · subst hyz
      simp only [dedupConsec, if_pos rfl]
      exact ih y
    · simp only [dedupConsec, if_neg hyz]
      exact ⟨dedupConsec (z :: zs), rfl⟩

theorem dedupConsec_chain : ∀ l : List String,
    List.Chain' (· ≠ ·) (dedupConsec l) := by
  intro l
  induction l with
  | nil => simp [dedupConsec]
  | cons x rest ih =>
    cases rest with
    | nil => simp [dedupConsec]
    | cons y ys =>
      by_cases hxy : x = y
      · subst hxy
        simpa only [dedupConsec, if_pos rfl] using ih
      · simp only [dedupConsec, if_neg hxy]
        obtain ⟨t, ht⟩ := dedupConsec_head y ys
        rw [ht] at ih ⊢
        exact List.chain'_cons.mpr ⟨hxy, ih⟩

theorem dedupConsec_const_append (c : String) :
    ∀ (l1 : List String), l1 ≠ [] → (∀ x ∈ l1, x = c) →
      ∀ l2, dedupConsec (l1 ++ l2) = dedupConsec (c :: l2) := by
  intro l1
  induction l1 with
  | nil => intro h; exact absurd rfl h
  | cons x xs ih =>
    intro _ hall l2
    have hx : x = c := hall x (List.mem_cons_self _ _)
    rw [hx]
    cases xs with
    | nil => simp
    | cons y ys =>
      have hy : y = c := hall y (by simp)
      have e0 : (c :: y :: ys) ++ l2 = c :: y :: (ys ++ l2) := by simp
      have e1 : dedupConsec (c :: y :: (ys ++ l2)) =
          if c = y then dedupConsec (y :: (ys ++ l2))
          else c :: dedupConsec (y :: (ys ++ l2)) := rfl
      have e2 : y :: (ys ++ l2) = (y :: ys) ++ l2 := by simp
      rw [e0, e1, if_pos hy.symm, e2]
      exact ih (by simp) (fun z hz => hall z (List.mem_cons_of_mem _ hz)) l2

theorem reportAux_ne_nil (m : Bool) (chrom : String)
    (rows : List OutputRegion) (st : GroupState) :
    reportAux m chrom st rows ≠ [] := by
  cases rows with
  | nil => simp [reportAux]
  | cons r rest =>
    simp only [reportAux]
    intro hcontra
    rcases List.append_eq_nil.mp hcontra with ⟨h1, _⟩
    unfold stepRow at h1
    rcases List.append_eq_nil.mp h1 with ⟨_, h3⟩
    exact List.cons_ne_nil _ _ h3

theorem reportAux_chrom_const (m : Bool) (chrom : String) :
    ∀ (rows : List OutputRegion) (st : GroupState) (row : EmitRow),
      row ∈ reportAux m chrom st rows → row.chrom = chrom := by
  intro rows
  induction rows with
  | nil =>
    intro st row hrow
    simp only [reportAux, List.mem_singleton] at hrow
    subst hrow
    rfl
  | cons r rest ih =>
    intro st row hrow
    rcases List.mem_append.mp hrow with h | h
    · simp only [stepRow] at h
      rcases List.mem_append.mp h with h2 | h2
      · by_cases hc : r.name ≠ st.current_gene ∧ st.current_gene ≠ ""
        · rw [if_pos hc] at h2
          simp only [List.mem_singleton] at h2
          subst h2
          rfl
        · rw [if_neg hc] at h2
          simp at h2
      · simp only [List.mem_singleton] at h2
        subst h2
        rfl
    · exact ih _ row h

theorem blocks_chrom_seq :
    ∀ (order : List String) (f : String → List EmitRow),
      (∀ c ∈ order, f c ≠ [] ∧ ∀ row ∈ f c, row.chrom = c) →
      List.Chain' (· ≠ ·) order →
      dedupConsec ((order.flatMap f).map fun r => r.chrom) = order := by
  intro order
  induction order with
  | nil => intro f _ _; rfl
  | cons c rest ih =>
    intro f hf hchain
    obtain ⟨hne, hall⟩ := hf c (List.mem_cons_self _ _)
    have hstep : ((c :: rest).flatMap f).map (fun r => r.chrom) =
        (f c).map (fun r => r.chrom) ++ (rest.flatMap f).map (fun r => r.chrom) := by
      simp [List.flatMap_cons]
    rw [hstep]
    have hmap_ne : (f c).map (fun r => r.chrom) ≠ [] := by
      intro hcon
      exact hne (List.map_eq_nil_iff.mp hcon)
    have hmap_all : ∀ x ∈ (f c).map (fun r => r.chrom), x = c := by
      intro x hx
      obtain ⟨row, hrow, hrx⟩ := List.mem_map.mp hx
      rw [← hrx]
      exact hall row hrow
    rw [dedupConsec_const_append c _ hmap_ne hmap_all]
    cases rest with
    | nil => rfl
    | cons c2 rest2 =>
      obtain ⟨hne2, hall2⟩ := hf c2 (List.mem_cons_of_mem _ (List.mem_cons_self _ _))
      have hcc2 : c ≠ c2 := (List.chain'_cons.mp hchain).1
      rcases hfc2 : f c2 with _ | ⟨r2, t2⟩
      · exact absurd hfc2 hne2
      · have hr2 : r2.chrom = c2 := hall2 r2 (by rw [hfc2]; exact List.mem_cons_self _ _)
        have hL : ((c2 :: rest2).flatMap f).map (fun r => r.chrom) =
            r2.chrom :: ((t2.map fun r => r.chrom) ++
              ((rest2.flatMap f).map fun r => r.chrom)) := by
          simp [List.flatMap_cons, hfc2]
        have hneq : c ≠ r2.chrom := by rw [hr2]; exact hcc2
        have hrec := ih f
          (fun d hd => hf d (List.mem_cons_of_mem _ hd))
          (List.chain'_cons.mp hchain).2
        rw [hL]
        simp only [dedupConsec, if_neg hneq]
        rw [← hL, hrec]

/- ### C2: chromosome block ordering -/

theorem insertBed_keys_sub (b : BedRecord) :
    ∀ (cat : Catalog) (c : String), c ∈ cat.map Prod.fst →
      c ∈ (insertBed cat b).map Prod.fst := by
  intro cat
  induction cat with
  | nil => intro c hc; simp at hc
  | cons q rest ih =>
    obtain ⟨cq, nsq⟩ := q
    intro c hc
    by_cases hq : cq = b.chrom
    · simpa [insertBed, hq] using hc
    · simp only [insertBed, if_neg hq, List.map_cons, List.mem_cons] at hc ⊢
      rcases hc with hc | hc
      · exact Or.inl hc
      · exact Or.inr (ih c hc)

theorem insertBed_keys_self (b : BedRecord) :
    ∀ cat : Catalog, b.chrom ∈ (insertBed cat b).map Prod.fst := by
  intro cat
  induction cat with
  | nil => simp [insertBed]
  | cons q rest ih =>
    obtain ⟨cq, nsq⟩ := q
    by_cases hq : cq = b.chrom
    · simp [insertBed, hq]
    · simp only [insertBed, if_neg hq, List.map_cons, List.mem_cons]
      exact Or.inr ih

theorem foldl_insertBed_keys_sub (l : List BedRecord) :
    ∀ (acc : Catalog) (c : String), c ∈ acc.map Prod.fst →
      c ∈ (l.foldl insertBed acc).map Prod.fst := by
  induction l with
  | nil => intro acc c hc; exact hc
  | cons b rest ih =>
    intro acc c hc
    exact ih (insertBed acc b) c (insertBed_keys_sub b acc c hc)

theorem buildCatalog_keys (beds : List BedRecord) (b : BedRecord)
    (hb : b ∈ beds) : b.chrom ∈ (buildCatalog beds).map Prod.fst := by
  unfold buildCatalog
  have main : ∀ (l : List BedRecord) (acc : Catalog) (b : BedRecord),
      b ∈ l → b.chrom ∈ (l.foldl insertBed acc).map Prod.fst := by
    intro l
    induction l with
    | nil => intro acc b hb; simp at hb
    | cons hd tl ih =>
      intro acc b hb
      rcases List.mem_cons.mp hb with rfl | hb'
      · exact foldl_insertBed_keys_sub tl (insertBed acc b) b.chrom
          (insertBed_keys_self b acc)
      · exact ih (insertBed acc hd) b hb'
  exact main beds [] b hb

theorem processBam_fst (cat : Catalog) (rs : List BamRecord) :
    (processBam cat rs).map Prod.fst = cat.map Prod.fst := by
  unfold processBam
  induction rs generalizing cat with
  | nil => rfl
  | cons r rest ih =>
    simp only [List.foldl_cons]
    rw [ih, processRecord_fst]

theorem lookup_fullcat (beds : List BedRecord) (bams : List BamRecord)
    (c : String) (hc : c ∈ beds.map fun b => b.chrom) :
    lookupCat (processBam (buildCatalog beds) bams) c ≠ none := by
  rw [Ne, lookupCat_none_iff, processBam_fst]
  intro hnot
  obtain ⟨b, hb, hbc⟩ := List.mem_map.mp hc
  exact hnot (hbc ▸ buildCatalog_keys beds b hb)

/-- C2 (amended): the chromosome blocks of the report appear in the order
of the region stream's chromosome sequence with CONSECUTIVE duplicates
collapsed (`Vec::dedup`).  When every chromosome's regions are contiguous
in the stream this is first-seen order with one block per chromosome, but a
chromosome recurring non-adjacently produces an additional block. -/
theorem c2_chrom_blocks (m : Bool) (beds : List BedRecord)
    (bams : List BamRecord) :
    dedupConsec ((fullReport m beds bams).map fun r => r.chrom) =
      dedupConsec (beds.map fun b => b.chrom) := by
  unfold fullReport reportOf
  apply blocks_chrom_seq
  · intro c hc
    have hc' : c ∈ beds.map fun b => b.chrom := (mem_dedupConsec _ c).mp hc
    have hlook := lookup_fullcat beds bams c hc'
    rcases Option.eq_none_or_eq_some
        (lookupCat (processBam (buildCatalog beds) bams) c) with hn | ⟨ns, hns⟩
    · exact absurd hn hlook
    · rw [hns]
      exact ⟨reportAux_ne_nil m c _ initGroup,
        fun row hrow => reportAux_chrom_const m c _ initGroup row hrow⟩
  · exact dedupConsec_chain _

/-- Counterexample to C2 as stated: regions loaded in order
`chr2, chr1, chr2` produce output blocks `chr2, chr1, chr2` — `Vec::dedup`
removes only consecutive duplicates, so the non-adjacent repeat of `chr2`
yields a SECOND `chr2` block instead of the claimed single block per
distinct chromosome. -/
theorem c2_counterexample :
    dedupConsec ((fullReport true
        [⟨"chr2", 0, 10, "g2"⟩, ⟨"chr1", 0, 10, "g1"⟩, ⟨"chr2", 20, 30, "g2b"⟩]
        []).map fun r => r.chrom) = ["chr2", "chr1", "chr2"] ∧
      (["chr2", "chr1", "chr2"] : List String) ≠ ["chr2", "chr1"] := by
  constructor
  · decide
  · decide

/- ### C9 infrastructure: a sentinel region's path through the pipeline -/

theorem insertBed_mem_self (cat : Catalog) (b : BedRecord) :
    ∃ ns, lookupCat (insertBed cat b) b.chrom = some ns ∧ bedNode b ∈ ns := by
  induction cat with
  | nil =>
    refine ⟨[bedNode b], ?_, by simp⟩
    simp [insertBed, lookupCat]
  | cons q rest ih =>
    obtain ⟨cq, nsq⟩ := q
    by_cases hq : cq = b.chrom
    · refine ⟨nsq ++ [bedNode b], ?_, by simp⟩
      simp [insertBed, hq, lookupCat]
    · obtain ⟨ns', h1, h2⟩ := ih
      refine ⟨ns', ?_, h2⟩
      simp only [insertBed, if_neg hq, lookupCat, if_neg hq]
      exact h1

theorem insertBed_mem_mono (b : BedRecord) :
    ∀ (cat : Catalog) (c : String) (ns : List IntervalNode) (n : IntervalNode),
      lookupCat cat c = some ns → n ∈ ns →
      ∃ ns', lookupCat (insertBed cat b) c = some ns' ∧ n ∈ ns' := by
  intro cat
  induction cat with
  | nil =>
    intro c ns n h1 _
    simp [lookupCat] at h1
  | cons q rest ih =>
    obtain ⟨cq, nsq⟩ := q
    intro c ns n h1 h2
    have hl : (if cq = c then some nsq else lookupCat rest c) = some ns := h1
    by_cases hqc : cq = c
    · rw [if_pos hqc] at hl
      have hns : nsq = ns := Option.some.inj hl
      by_cases hq : cq = b.chrom
      · have e1 : insertBed ((cq, nsq) :: rest) b =
            (cq, nsq ++ [bedNode b]) :: rest := by
          show (if cq = b.chrom then (cq, nsq ++ [bedNode b]) :: rest
            else (cq, nsq) :: insertBed rest b) = _
          rw [if_pos hq]
        refine ⟨nsq ++ [bedNode b], ?_,
          List.mem_append_left _ (hns ▸ h2)⟩
        rw [e1]
        show (if cq = c then some (nsq ++ [bedNode b])
          else lookupCat rest c) = some (nsq ++ [bedNode b])
        rw [if_pos hqc]
      · have e1 : insertBed ((cq, nsq) :: rest) b =
            (cq, nsq) :: insertBed rest b := by
          show (if cq = b.chrom then (cq, nsq ++ [bedNode b]) :: rest
            else (cq, nsq) :: insertBed rest b) = _
          rw [if_neg hq]
        refine ⟨ns, ?_, h2⟩
        rw [e1]
        show (if cq = c then some nsq
          else lookupCat (insertBed rest b) c) = some ns
        rw [if_pos hqc, hns]
    · rw [if_neg hqc] at hl
      by_cases hq : cq = b.chrom
      · have e1 : insertBed ((cq, nsq) :: rest) b =
            (cq, nsq ++ [bedNode b]) :: rest := by
          show (if cq = b.chrom then (cq, nsq ++ [bedNode b]) :: rest
            else (cq, nsq) :: insertBed rest b) = _
          rw [if_pos hq]
        refine ⟨ns, ?_, h2⟩
        rw [e1]
        show (if cq = c then some (nsq ++ [bedNode b])
          else lookupCat rest c) = some ns
        rw [if_neg hqc]
        exact hl
      · obtain ⟨ns', h3, h4⟩ := ih c ns n hl h2
        have e1 : insertBed ((cq, nsq) :: rest) b =
            (cq, nsq) :: insertBed rest b := by
          show (if cq = b.chrom then (cq, nsq ++ [bedNode b]) :: rest
            else (cq, nsq) :: insertBed rest b) = _
          rw [if_neg hq]
        refine ⟨ns', ?_, h4⟩
        rw [e1]
        show (if cq = c then some nsq
          else lookupCat (insertBed rest b) c) = some ns'
        rw [if_neg hqc]
        exact h3

theorem buildCatalog_mem (beds : List BedRecord) (b : BedRecord)
    (hb : b ∈ beds) :
    ∃ ns, lookupCat (buildCatalog beds) b.chrom = some ns ∧ bedNode b ∈ ns := by
  unfold buildCatalog
  have main : ∀ (l : List BedRecord) (acc : Catalog) (b : BedRecord),
      (b ∈ l ∨ ∃ ns0, lookupCat acc b.chrom = some ns0 ∧ bedNode b ∈ ns0) →
      ∃ ns, lookupCat (l.foldl insertBed acc) b.chrom = some ns ∧
        bedNode b ∈ ns := by
    intro l
    induction l with
    | nil =>
      intro acc b h
      rcases h with h | h
      · simp at h
      · exact h
    | cons hd tl ih =>
      intro acc b h
      apply ih (insertBed acc hd) b
      rcases h with h | ⟨ns0, hl, hm⟩
      · rcases List.mem_cons.mp h with rfl | h'
        · exact Or.inr (insertBed_mem_self acc b)
        · exact Or.inl h'
      · exact Or.inr (insertBed_mem_mono hd acc _ ns0 _ hl hm)
  exact main beds [] b (Or.inl hb)

theorem touchNode_dot (qf ql s e : Int) {n : IntervalNode}
    (h : n.metadata.name = ".") : touchNode qf ql s e n = n := by
  unfold touchNode
  split
  · exact update_node_dot _ _ _ h
  · rfl

theorem lookupCat_map_recF (r : BamRecord) :
    ∀ (cat : Catalog) (c : String),
      lookupCat (cat.map (recF r)) c =
        (lookupCat cat c).map fun ns =>
          if c = r.contig then
            applyQuery (alignStart r - 1) (alignEnd r + 1)
              (alignStart r) (alignEnd r) ns
          else ns := by
  intro cat
  induction cat with
  | nil => intro c; rfl
  | cons q rest ih =>
    obtain ⟨cq, nsq⟩ := q
    intro c
    rw [List.map_cons, recF_pair]
    by_cases hqc : cq = c
    · subst hqc
      simp [lookupCat]
    · simp only [lookupCat, if_neg hqc]
      exact ih c

theorem processRecord_mem_dot {cat : Catalog} (r : BamRecord) {c : String}
    {ns : List IntervalNode} {n : IntervalNode}
    (h1 : lookupCat cat c = some ns) (h2 : n ∈ ns)
    (hdot : n.metadata.name = ".") :
    ∃ ns', lookupCat (processRecord cat r) c = some ns' ∧ n ∈ ns' := by
  unfold processRecord
  split
  · exact ⟨ns, h1, h2⟩
  · split
    · exact ⟨ns, h1, h2⟩
    · split
      · exact ⟨ns, h1, h2⟩
      · rw [lookupCat_map_recF, h1]
        refine ⟨_, rfl, ?_⟩
        show n ∈ (if c = r.contig then
            applyQuery (alignStart r - 1) (alignEnd r + 1) (alignStart r)
              (alignEnd r) ns
          else ns)
        by_cases hc : c = r.contig
        · rw [if_pos hc]
          unfold applyQuery
          exact List.mem_map.mpr ⟨n, h2, touchNode_dot _ _ _ _ hdot⟩
        · rw [if_neg hc]
          exact h2

theorem processBam_mem_dot (bams : List BamRecord) :
    ∀ {cat : Catalog} {c : String} {ns : List IntervalNode}
      {n : IntervalNode},
      lookupCat cat c = some ns → n ∈ ns → n.metadata.name = "." →
      ∃ ns', lookupCat (processBam cat bams) c = some ns' ∧ n ∈ ns' := by
  induction bams with
  | nil =>
    intro cat c ns n h1 h2 _
    exact ⟨ns, h1, h2⟩
  | cons r rest ih =>
    intro cat c ns n h1 h2 hdot
    obtain ⟨ns', h1', h2'⟩ := processRecord_mem_dot r h1 h2 hdot
    exact ih h1' h2' hdot

theorem drain_mem {ns : List IntervalNode} {n : IntervalNode} (h : n ∈ ns)
    (h1 : n.first ≤ i32MAX) (h2 : 0 ≤ n.last) :
    toOutputRegion n ∈ drainNodes ns := by
  unfold drainNodes
  apply List.mem_map_of_mem
  rw [List.mem_filter]
  exact ⟨h, overlaps_iff.mpr ⟨h1, h2⟩⟩

theorem amplicon_mem_reportAux (m : Bool) (chrom : String) :
    ∀ (rows : List OutputRegion) (st : GroupState) (r : OutputRegion),
      r ∈ rows → ampliconRow m chrom r ∈ reportAux m chrom st rows := by
  intro rows
  induction rows with
  | nil =>
    intro st r h
    simp at h
  | cons q rest ih =>
    intro st r h
    simp only [reportAux]
    rcases List.mem_cons.mp h with rfl | h'
    · apply List.mem_append_left
      simp only [stepRow]
      apply List.mem_append_right
      simp
    · exact List.mem_append_right _ (ih _ r h')

theorem wg_mem_reportAux_of_gene (m : Bool) (chrom : String) :
    ∀ (rows : List OutputRegion) (st : GroupState), st.current_gene ≠ "" →
      ∃ row ∈ reportAux m chrom st rows,
        row.tag = "Whole-Gene" ∧ row.gene = st.current_gene := by
  intro rows
  induction rows with
  | nil =>
    intro st _
    exact ⟨wgRow chrom st, by simp [reportAux], rfl, rfl⟩
  | cons q rest ih =>
    intro st h
    simp only [reportAux]
    by_cases hq : q.name = st.current_gene
    · have hg : (stepRow m chrom st q).1.current_gene ≠ "" := by
        rw [stepRow_gene, hq]
        exact h
      obtain ⟨row, hmem, htag, hgene⟩ := ih (stepRow m chrom st q).1 hg
      refine ⟨row, List.mem_append_right _ hmem, htag, ?_⟩
      rw [hgene, stepRow_gene, hq]
    · refine ⟨wgRow chrom st, ?_, rfl, rfl⟩
      apply List.mem_append_left
      simp only [stepRow]
      apply List.mem_append_left
      rw [if_pos ⟨hq, h⟩]
      simp

theorem wg_mem_reportAux (m : Bool) (chrom : String) :
    ∀ (rows : List OutputRegion) (st : GroupState) (g : String), g ≠ "" →
      (∃ r ∈ rows, r.name = g) →
      ∃ row ∈ reportAux m chrom st rows,
        row.tag = "Whole-Gene" ∧ row.gene = g := by
  intro rows
  induction rows with
  | nil =>
    intro st g _ hex
    obtain ⟨r, hr, _⟩ := hex
    simp at hr
  | cons q rest ih =>
    intro st g hg hex
    obtain ⟨r, hr, hname⟩ := hex
    rcases List.mem_cons.mp hr with rfl | hr'
    · have hg' : (stepRow m chrom st r).1.current_gene ≠ "" := by
        rw [stepRow_gene, hname]
        exact hg
      obtain ⟨row, hmem, htag, hgene⟩ :=
        wg_mem_reportAux_of_gene m chrom rest (stepRow m chrom st r).1 hg'
      refine ⟨row, ?_, htag, ?_⟩
      · simp only [reportAux]
        exact List.mem_append_right _ hmem
      · rw [hgene, stepRow_gene, hname]
    · obtain ⟨row, hmem, htag, hgene⟩ :=
        ih (stepRow m chrom st q).1 g hg ⟨r, hr', hname⟩
      refine ⟨row, ?_, htag, hgene⟩
      simp only [reportAux]
      exact List.mem_append_right _ hmem

/-- C9: sentinel-named regions are not filtered from the report.  For every
BED record named `"."` (with its stored bounds inside the drain query's
range), after any BAM stream: its chromosome's final entry still contains
it, the drain produces its `OutputRegion` with `overlap_total = 0`, its
Amplicon row (computed from the 0 counter) appears in the final report, and
the report contains a Whole-Gene row for the `"."` group on its chromosome,
closed out exactly like any other group name. -/
theorem c9_sentinel_in_report (m : Bool) (beds : List BedRecord)
    (bams : List BamRecord) (b : BedRecord) (hb : b ∈ beds)
    (hname : b.name = ".") (hlo : 0 ≤ b.end_) (hhi : b.start ≤ i32MAX) :
    ∃ ns, lookupCat (processBam (buildCatalog beds) bams) b.chrom = some ns ∧
      (⟨".", b.start, b.end_, 0⟩ : OutputRegion) ∈ drainNodes ns ∧
      ampliconRow m b.chrom ⟨".", b.start, b.end_, 0⟩ ∈
        fullReport m beds bams ∧
      ∃ row ∈ fullReport m beds bams, row.tag = "Whole-Gene" ∧
        row.gene = "." ∧ row.chrom = b.chrom := by
  obtain ⟨ns0, hl0, hm0⟩ := buildCatalog_mem beds b hb
  have hdot : (bedNode b).metadata.name = "." := by
    simp [bedNode, hname]
  obtain ⟨ns, hl, hm⟩ := processBam_mem_dot bams hl0 hm0 hdot
  have hout : toOutputRegion (bedNode b) =
      (⟨".", b.start, b.end_, 0⟩ : OutputRegion) := by
    simp [toOutputRegion, bedNode, hname]
  have hdrain : (⟨".", b.start, b.end_, 0⟩ : OutputRegion) ∈ drainNodes ns := by
    rw [← hout]
    exact drain_mem hm hhi hlo
  have hc : b.chrom ∈ dedupConsec (beds.map fun b => b.chrom) :=
    (mem_dedupConsec _ _).mpr (List.mem_map_of_mem _ hb)
  have hsortmem : (⟨".", b.start, b.end_, 0⟩ : OutputRegion) ∈
      sortRows (drainNodes ns) := by
    rw [sortRows, List.mem_insertionSort]
    exact hdrain
  have hblock : (match lookupCat (processBam (buildCatalog beds) bams) b.chrom
      with
      | some ns => reportChrom m b.chrom (sortRows (drainNodes ns))
      | none => []) = reportChrom m b.chrom (sortRows (drainNodes ns)) := by
    rw [hl]
  refine ⟨ns, hl, hdrain, ?_, ?_⟩
  · unfold fullReport reportOf
    apply List.mem_flatMap.mpr
    refine ⟨b.chrom, hc, ?_⟩
    rw [hblock]
    exact amplicon_mem_reportAux m b.chrom _ initGroup _ hsortmem
  · obtain ⟨row, hrmem, htag, hgene⟩ :=
      wg_mem_reportAux m b.chrom (sortRows (drainNodes ns)) initGroup "."
        (by decide) ⟨_, hsortmem, rfl⟩
    have hchrom : row.chrom = b.chrom :=
      reportAux_chrom_const m b.chrom _ initGroup row hrmem
    refine ⟨row, ?_, htag, hgene, hchrom⟩
    unfold fullReport reportOf
    apply List.mem_flatMap.mpr
    refine ⟨b.chrom, hc, ?_⟩
    rw [hblock]
    exact hrmem

/-- Witness for C9 at a concrete pipeline run: a `"."`-region alongside a
named region, hit by one alignment. -/
theorem c9_sentinel_in_report_witness :
    ∃ ns, lookupCat (processBam
        (buildCatalog [⟨"chr1", 5, 15, "."⟩, ⟨"chr1", 0, 10, "g"⟩])
        [⟨false, 0, "chr1", 2, [.Match 10]⟩]) "chr1" = some ns ∧
      (⟨".", 5, 15, 0⟩ : OutputRegion) ∈ drainNodes ns ∧
      ampliconRow true "chr1" ⟨".", 5, 15, 0⟩ ∈
        fullReport true [⟨"chr1", 5, 15, "."⟩, ⟨"chr1", 0, 10, "g"⟩]
          [⟨false, 0, "chr1", 2, [.Match 10]⟩] ∧
      ∃ row ∈ fullReport true [⟨"chr1", 5, 15, "."⟩, ⟨"chr1", 0, 10, "g"⟩]
          [⟨false, 0, "chr1", 2, [.Match 10]⟩],
        row.tag = "Whole-Gene" ∧ row.gene = "." ∧ row.chrom = "chr1" :=
  c9_sentinel_in_report true [⟨"chr1", 5, 15, "."⟩, ⟨"chr1", 0, 10, "g"⟩]
    [⟨false, 0, "chr1", 2, [.Match 10]⟩] ⟨"chr1", 5, 15, "."⟩
    (by decide) rfl (by decide) (by decide)

end Seq2c
